import Mathlib

set_option maxRecDepth 40000

/-!
# Verification of the Vansh failover core against its specification

Shallow embedding of the Guardian supervisor, the health registry, the
quality gate, the sanitizer, the deterministic text baseline, the
structural book fallback and the tier cascades of
`backend/app/services/{guardian,local_nlp,story_writer,transcription,image_generator}.py`.

Python strings are modelled as `List Char`; machine text operations
(`str.strip`, `str.split`, `str.lower`, the specific `re.sub` patterns the
code uses) are given bespoke executable definitions that implement the
semantics of the concrete pattern appearing in the source.  `\s`, `\w`,
`str.strip` and `str.split` are modelled over their ASCII behaviour, which
is exact for all inputs considered here.  Fallible Python code is modelled
with `Except`/`Option`; wall-clock timestamps are omitted.
-/

namespace Vansh

/-! ## Basic character classes (ASCII models of Python `\s`, `\w`, case maps) -/

/-- Python whitespace (`\s`, `str.strip`, `str.split`), ASCII fragment:
space, tab, newline, carriage return, vertical tab, form feed. -/
def isSpaceC (c : Char) : Bool :=
  c = ' ' || c = '\t' || c = '\n' || c = '\r' || c = Char.ofNat 11 || c = Char.ofNat 12

/-- Python word character (`\w`), ASCII fragment: letters, digits, underscore. -/
def isWordC (c : Char) : Bool :=
  (('a' ≤ c && c ≤ 'z') || ('A' ≤ c && c ≤ 'Z') || ('0' ≤ c && c ≤ '9') || c = '_')

/-- ASCII test: code point below 128 (`ord(i) < 128`). -/
def isAsciiC (c : Char) : Bool := c.toNat < 128

/-- `str.lower()` on one char (ASCII case map, as in Lean `Char.toLower`). -/
def lowerC (c : Char) : Char :=
  if 65 ≤ c.toNat ∧ c.toNat ≤ 90 then Char.ofNat (c.toNat + 32) else c

/-- `str.upper()` on one char (ASCII case map, as in Lean `Char.toUpper`). -/
def upperC (c : Char) : Char :=
  if 97 ≤ c.toNat ∧ c.toNat ≤ 122 then Char.ofNat (c.toNat - 32) else c

/-! ## Python string primitives over `List Char` -/

/-- `str.lstrip()` (ASCII whitespace). -/
def pyLStrip : List Char → List Char
  | [] => []
  | c :: rest => if isSpaceC c then pyLStrip rest else c :: rest

/-- `str.rstrip()` (ASCII whitespace). -/
def pyRStrip : List Char → List Char
  | [] => []
  | c :: rest =>
      match pyRStrip rest with
      | [] => if isSpaceC c then [] else [c]
      | r => c :: r

/-- `str.strip()` (ASCII whitespace). -/
def pyStrip (l : List Char) : List Char :=
  pyRStrip (pyLStrip l)

/-- `str.lower()` (ASCII case map). -/
def pyLower (l : List Char) : List Char := l.map lowerC

/-- One token of `str.split()`: leading run of non-whitespace. -/
def takeWord : List Char → List Char
  | [] => []
  | c :: rest => if isSpaceC c then [] else c :: takeWord rest

def dropWord : List Char → List Char
  | [] => []
  | c :: rest => if isSpaceC c then c :: rest else dropWord rest

/-- `str.split()` with no separator: split on whitespace runs, no empty tokens.
Structured on a fuel argument (the length of the list) so that it reduces
definitionally. -/
def pySplitF : Nat → List Char → List (List Char)
  | 0, _ => []
  | _, [] => []
  | fuel + 1, c :: rest =>
      if isSpaceC c then pySplitF fuel rest
      else (c :: takeWord rest) :: pySplitF fuel (dropWord rest)

def pySplit (l : List Char) : List (List Char) := pySplitF l.length l

/-- `" ".join(parts)`. -/
def joinSpace : List (List Char) → List Char
  | [] => []
  | [p] => p
  | p :: rest => p ++ ' ' :: joinSpace rest

/-- Number of distinct elements, i.e. `len(set(xs))`. -/
def distinctCount (ws : List (List Char)) : Nat := ws.dedup.length

/-! ## Guardian supervisor (`guardian.py`)

The health registry is a Python dict keyed by service name; modelled as an
association list with insert-or-update semantics.  Timestamps are omitted
(wall-clock time is not modelled); `last_error` is kept. -/

inductive Status
  | ONLINE
  | DEGRADED
  | OFFLINE
deriving DecidableEq, Repr

structure ServiceRecord where
  status : Status
  failures : Nat
  lastError : Option (List Char)
deriving DecidableEq, Repr

def Registry := List (List Char × ServiceRecord)

instance : DecidableEq Registry := by
  unfold Registry
  infer_instance

def regGet (reg : Registry) (name : List Char) : Option ServiceRecord :=
  match reg with
  | [] => none
  | (n, r) :: rest => if n = name then some r else regGet rest name

/-- Python dict assignment: update in place if the key exists, else append. -/
def regSet (reg : Registry) (name : List Char) (r : ServiceRecord) : Registry :=
  match reg with
  | [] => [(name, r)]
  | (n, r0) :: rest =>
      if n = name then (n, r) :: rest else (n, r0) :: regSet rest name r

/-- `GuardianSupervisor.report_success`. -/
def report_success (reg : Registry) (name : List Char) : Registry :=
  regSet reg name ⟨Status.ONLINE, 0, none⟩

/-- `GuardianSupervisor.report_failure`: increment the failure counter
(defaulting to 0 for an unknown service), set status DEGRADED, or OFFLINE
once the counter exceeds 3, and record the error text. -/
def report_failure (reg : Registry) (name : List Char) (err : List Char) : Registry :=
  let old := ((regGet reg name).map ServiceRecord.failures).getD 0
  let f := old + 1
  regSet reg name ⟨if 3 < f then Status.OFFLINE else Status.DEGRADED, f, some err⟩

inductive SystemStatus
  | CRITICAL
  | STABLE
deriving DecidableEq, Repr

/-- `GuardianSupervisor.get_status_report` (timestamp omitted): system
status is CRITICAL when any service is OFFLINE, and the registry is
returned as the service map. -/
def get_status_report (reg : Registry) : SystemStatus × Registry :=
  (if reg.any (fun p => p.2.status = Status.OFFLINE) then SystemStatus.CRITICAL
   else SystemStatus.STABLE, reg)

/-- Outcome of calling a Python callable: a value or a raised exception. -/
def PyCall (α : Type) := Except (List Char) α

/-- `GuardianSupervisor.safe_execute`: run the primary, report success and
return its value; on an exception report the failure and run the fallback
when one was given, returning the default value if the fallback also
raises or none was given.  Total by construction: no branch re-raises. -/
def safe_execute {α : Type} (reg : Registry) (name : List Char)
    (primary : PyCall α) (fallback : Option (PyCall α)) (default : α) :
    α × Registry :=
  match primary with
  | .ok v => (v, report_success reg name)
  | .error e =>
      let reg' := report_failure reg name e
      match fallback with
      | some (.ok v) => (v, reg')
      | some (.error _) => (default, reg')
      | none => (default, reg')

/-- The `with_guardian(service_name, fallback, default)` decorator applied
to a function call.  Values are `Option V` (`none` is Python `None`).  The
decorator passes `lambda: fallback(*args, **kwargs) if fallback else None`
as the fallback: the conditional sits inside the lambda, so `safe_execute`
always receives a callable (here: `some _`), which evaluates to Python
`None` when no fallback function was supplied. -/
def with_guardian_wrapper {V : Type} (reg : Registry) (name : List Char)
    (funcCall : PyCall (Option V)) (fallback : Option (PyCall (Option V)))
    (default : Option V) : Option V × Registry :=
  safe_execute reg name funcCall
    (some (match fallback with
           | some fb => fb
           | none => .ok none))
    default

/-! ## Quality gate (`LocalNLPService._is_junk`) -/

def meta_markers : List (List Char) :=
  [("please provide".toList), ("the text is not".toList), ("translate the".toList),
   ("as an ai".toList), ("i cannot".toList), ("here is the".toList),
   ("translation of".toList)]

/-- Does `pat` occur at the start of the text? -/
def startsWithL : List Char → List Char → Bool
  | [], _ => true
  | _ :: _, [] => false
  | p :: ps, c :: cs => p = c && startsWithL ps cs

/-- Python `pat in text` substring containment. -/
def containsSub (pat : List Char) : List Char → Bool
  | [] => startsWithL pat []
  | c :: rest => startsWithL pat (c :: rest) || containsSub pat rest

/-- `len(re.findall(r'[^\x00-\x7F]', text))`. -/
def countNonAscii (l : List Char) : Nat := (l.filter (fun c => !(isAsciiC c))).length

/-- `LocalNLPService._is_junk`.  The float comparisons
`non_ascii > len(text) * 0.3` and `unique_ratio < 0.3` are modelled
exactly over the integers as `10 * non_ascii > 3 * len` and
`10 * unique < 3 * total`. -/
def is_junk (text : List Char) : Bool :=
  if text = [] ∨ (pyStrip text).length < 5 then true
  else if 3 * text.length < 10 * countNonAscii text then true
  else if 20 < (pySplit (pyLower text)).length ∧
          10 * distinctCount (pySplit (pyLower text)) <
            3 * (pySplit (pyLower text)).length then true
  else if (meta_markers.any (fun m => containsSub m (pyLower text))) ∧
          text.length < 100 then true
  else false

/-! ## Bespoke `re.sub` engine

Each `re.sub` call in `local_nlp.py` uses a fixed pattern.  A `Matcher`
implements one such pattern: given the character preceding the scan
position in the original text (for `\b` lookbehind) and the remaining
text, it either fails or returns the replacement together with the
remainder of the text after the match.  Patterns are compiled by hand,
following the backtracking semantics of Python `re` for these shapes
(literal alternations tried in order, greedy `*`/`+` over character
classes with no useful backtracking, `\b` word boundaries). -/

def Matcher := Option Char → List Char → Option (List Char × List Char)

/-- `\b` before a match: previous char absent or not a word char. -/
def boundaryOK (prev : Option Char) : Bool :=
  match prev with
  | none => true
  | some c => !(isWordC c)

/-- `\b` after a match: next char absent or not a word char. -/
def boundaryEnd (l : List Char) : Bool :=
  match l with
  | [] => true
  | c :: _ => !(isWordC c)

/-- Case-sensitive literal match at the head. -/
def dropLitCS : List Char → List Char → Option (List Char)
  | [], l => some l
  | _ :: _, [] => none
  | p :: ps, c :: cs => if c = p then dropLitCS ps cs else none

/-- Case-insensitive (`(?i)`, ASCII folding) literal match at the head. -/
def dropLitCI : List Char → List Char → Option (List Char)
  | [], l => some l
  | _ :: _, [] => none
  | p :: ps, c :: cs => if lowerC c = lowerC p then dropLitCI ps cs else none

def dropLit (ci : Bool) (p l : List Char) : Option (List Char) :=
  if ci then dropLitCI p l else dropLitCS p l

/-- Greedy `f*` over a character class. -/
def dropClassStar (f : Char → Bool) : List Char → List Char
  | [] => []
  | c :: rest => if f c then dropClassStar f rest else c :: rest

/-- Greedy `f+` over a character class. -/
def dropClassPlus (f : Char → Bool) (l : List Char) : Option (List Char) :=
  match l with
  | [] => none
  | c :: rest => if f c then some (dropClassStar f rest) else none

def dropSpaces : List Char → List Char := dropClassStar isSpaceC

/-- `\s+`. -/
def dropWS1 (l : List Char) : Option (List Char) := dropClassPlus isSpaceC l

/-- Maximal `\w+` run at the head. -/
def takeWordRun : List Char → List Char
  | [] => []
  | c :: rest => if isWordC c then c :: takeWordRun rest else []

/-- Match a sequence of literals joined by `\s+` (e.g. `you\s+know`). -/
def matchSeq (ci : Bool) : List (List Char) → List Char → Option (List Char)
  | [], l => some l
  | [w], l => dropLit ci w l
  | w :: ws, l =>
      match dropLit ci w l with
      | none => none
      | some l1 =>
          match dropWS1 l1 with
          | none => none
          | some l2 => matchSeq ci ws l2

def pickFirst {α β : Type} (f : α → Option β) : List α → Option β
  | [] => none
  | a :: rest =>
      match f a with
      | some b => some b
      | none => pickFirst f rest

/-- A pattern of the shape
`\b(alt|alt|...)[\b][\w*][class+ or class*]` with a fixed replacement.
Each alternative is a list of literals joined by `\s+`.  Alternatives are
tried in order; the first whose full continuation succeeds wins, which is
exactly Python backtracking here because no alternative is a proper
prefix of another except where the trailing `\b` disambiguates. -/
structure AltPat where
  alts : List (List (List Char))
  ci : Bool
  trailB : Bool
  wstar : Bool
  tailStar : Option (Char → Bool)
  tailPlus : Option (Char → Bool)
  rep : List Char

def mAlt (p : AltPat) : Matcher := fun prev l =>
  if boundaryOK prev then
    pickFirst (fun a =>
      match matchSeq p.ci a l with
      | none => none
      | some r1 =>
          if p.trailB && !(boundaryEnd r1) then none
          else
            let r2 := if p.wstar then dropClassStar isWordC r1 else r1
            match p.tailPlus with
            | some f =>
                match dropClassPlus f r2 with
                | none => none
                | some r3 => some (p.rep, r3)
            | none =>
                match p.tailStar with
                | some f => some (p.rep, dropClassStar f r2)
                | none => some (p.rep, r2)) p.alts
  else none

/-- The apostrophe character (for the literal `here's`). -/
def apoC : Char := Char.ofNat 39

/-- The backtick character. -/
def btickC : Char := Char.ofNat 96

/-- `re.sub(r"^```[a-z]*\n?"-at-any-position, "")`, i.e. the markdown
fence opener pattern of `_clean_ai_output` step 1. -/
def mBacktickBlock : Matcher := fun _ l =>
  match dropLitCS [btickC, btickC, btickC] l with
  | none => none
  | some r1 =>
      let r2 := dropClassStar (fun c => 'a' ≤ c && c ≤ 'z') r1
      match r2 with
      | c :: t => if c = Char.ofNat 10 then some ([], t) else some ([], r2)
      | [] => some ([], r2)

/-- `.replace("```", "")`. -/
def mTripleTick : Matcher := fun _ l =>
  match dropLitCS [btickC, btickC, btickC] l with
  | none => none
  | some r => some ([], r)

/-- Scan forward for the earliest position where `close` matches, and
drop through it (the non-greedy `.*?close`). -/
def dropToAfterF (close : List Char) : Nat → List Char → Option (List Char)
  | 0, _ => none
  | _ + 1, [] => dropLitCI close []
  | fuel + 1, c :: t =>
      match dropLitCI close (c :: t) with
      | some r => some r
      | none => dropToAfterF close fuel t

/-- `(?i)<think>.*?</think>` with DOTALL. -/
def mThink : Matcher := fun _ l =>
  match dropLitCI (("<think>").toList) l with
  | none => none
  | some r1 =>
      match dropToAfterF (("</think>").toList) (r1.length + 1) r1 with
      | none => none
      | some rem => some ([], rem)

/-- `(?i)\[thought\].*?\[/thought\]` with DOTALL. -/
def mThought : Matcher := fun _ l =>
  match dropLitCI (("[thought]").toList) l with
  | none => none
  | some r1 =>
      match dropToAfterF (("[/thought]").toList) (r1.length + 1) r1 with
      | none => none
      | some rem => some ([], rem)

/-- Artifact pattern 1:
`(?i)\b(paraphrase|summarize|refined|corrected|polished|output|result|note|translation|translated|prose|narrative)\w*[:\s-]+`,
replaced by a space. -/
def mP1 : Matcher :=
  mAlt { alts := [[("paraphrase").toList], [("summarize").toList],
                  [("refined").toList], [("corrected").toList],
                  [("polished").toList], [("output").toList],
                  [("result").toList], [("note").toList],
                  [("translation").toList], [("translated").toList],
                  [("prose").toList], [("narrative").toList]],
         ci := true, trailB := false, wstar := true,
         tailStar := none,
         tailPlus := some (fun c => c = ':' || isSpaceC c || c = '-'),
         rep := [' '] }

/-- Artifact pattern 2:
`(?i)\b(here is|here's|this is|certainly|sure|absolutely) the (refined|corrected|polished|prose|translation|result)\w*[:\s-]*`,
replaced by a space. -/
def mP2 : Matcher := fun prev l =>
  if boundaryOK prev then
    match pickFirst (fun a => dropLitCI a l)
      [("here is").toList, ("here").toList ++ apoC :: ("s").toList,
       ("this is").toList, ("certainly").toList, ("sure").toList,
       ("absolutely").toList] with
    | none => none
    | some r1 =>
        match dropLitCI ((" the ").toList) r1 with
        | none => none
        | some r2 =>
            match pickFirst (fun a => dropLitCI a r2)
              [("refined").toList, ("corrected").toList, ("polished").toList,
               ("prose").toList, ("translation").toList, ("result").toList] with
            | none => none
            | some r3 =>
                some ([' '],
                  dropClassStar (fun c => c = ':' || isSpaceC c || c = '-')
                    (dropClassStar isWordC r3))
  else none

/-- Artifact pattern 3:
`(?i)\b(certainly|sure|here you go|absolutely|no problem)[,!\.\s]*`,
replaced by a space. -/
def mP3 : Matcher :=
  mAlt { alts := [[("certainly").toList], [("sure").toList],
                  [("here you go").toList], [("absolutely").toList],
                  [("no problem").toList]],
         ci := true, trailB := false, wstar := false,
         tailStar := some (fun c => c = ',' || c = '!' || c = '.' || isSpaceC c),
         tailPlus := none, rep := [' '] }

/-- Artifact pattern 4: `(?i)\bon it is: `, replaced by a space. -/
def mP4 : Matcher :=
  mAlt { alts := [[("on it is: ").toList]],
         ci := true, trailB := false, wstar := false,
         tailStar := none, tailPlus := none, rep := [' '] }

/-- Artifact pattern 5:
`(?i)\b(la|da|na|pa|dei|machan|kanne|ra|ga|umm|ahh|like|you know|basically|actually)\b[\s,!\.]*`,
replaced by a space. -/
def mP5 : Matcher :=
  mAlt { alts := [[("la").toList], [("da").toList], [("na").toList],
                  [("pa").toList], [("dei").toList], [("machan").toList],
                  [("kanne").toList], [("ra").toList], [("ga").toList],
                  [("umm").toList], [("ahh").toList], [("like").toList],
                  [("you know").toList], [("basically").toList],
                  [("actually").toList]],
         ci := true, trailB := true, wstar := false,
         tailStar := some (fun c => isSpaceC c || c = ',' || c = '!' || c = '.'),
         tailPlus := none, rep := [' '] }

/-- The recursive-loop artifact pattern:
`(?i)\b(paraphrase|summarize|translation|refined|polished)\w*`,
replaced by the empty string. -/
def mSubA : Matcher :=
  mAlt { alts := [[("paraphrase").toList], [("summarize").toList],
                  [("translation").toList], [("refined").toList],
                  [("polished").toList]],
         ci := true, trailB := false, wstar := true,
         tailStar := none, tailPlus := none, rep := [] }

/-- One repetition `\s+\1\b` of the word-stutter pattern. -/
def oneRep (w : List Char) (l : List Char) : Option (List Char) :=
  match dropWS1 l with
  | none => none
  | some l1 =>
      match dropLitCI w l1 with
      | none => none
      | some l2 => if boundaryEnd l2 then some l2 else none

def manyRepsF (w : List Char) : Nat → List Char → List Char
  | 0, l => l
  | fuel + 1, l =>
      match oneRep w l with
      | none => l
      | some l2 => manyRepsF w fuel l2

/-- `\b(\w+)(?:\s+\1\b)+` with IGNORECASE, replaced by `\1` (the first
occurrence, with its original casing). -/
def mDedup : Matcher := fun prev l =>
  if boundaryOK prev then
    match takeWordRun l with
    | [] => none
    | w =>
        match oneRep w (l.drop w.length) with
        | none => none
        | some l2 => some (w, manyRepsF w l.length l2)
  else none

/-- `\s+`, replaced by a single space. -/
def mWs : Matcher := fun _ l =>
  match l with
  | [] => none
  | c :: rest => if isSpaceC c then some ([' '], dropSpaces rest) else none

/-- `\.\s+\.`, replaced by a dot. -/
def mDots : Matcher := fun _ l =>
  match l with
  | [] => none
  | c :: rest =>
      if c = '.' then
        match dropWS1 rest with
        | none => none
        | some r2 =>
            match r2 with
            | d :: r3 => if d = '.' then some (['.'], r3) else none
            | [] => none
      else none

/-- `([\.!\?])\1+`, replaced by `\1`. -/
def dropRunOf (c : Char) : List Char → List Char
  | [] => []
  | d :: rest => if d = c then dropRunOf c rest else d :: rest

def mPunct : Matcher := fun _ l =>
  match l with
  | c :: d :: rest =>
      if (c = '.' || c = '!' || c = '?') && d = c then some ([c], dropRunOf c rest)
      else none
  | _ => none

/-- `re.sub` driver: scan left to right over the original text, emitting
the replacement at each non-overlapping match; threads the previous
original character for `\b` lookbehind.  A matcher step that does not
shorten the remainder is treated as no match (none of the embedded
patterns can match the empty string).  Fuel-structured on the input
length so it reduces definitionally. -/
def subScanF (m : Matcher) : Nat → Option Char → List Char → List Char
  | 0, _, l => l
  | _ + 1, _, [] => []
  | fuel + 1, prev, c :: rest =>
      match m prev (c :: rest) with
      | some (rep, rem) =>
          if _h : rem.length < (c :: rest).length then
            rep ++ subScanF m fuel
              (some ((c :: rest).getD ((c :: rest).length - rem.length - 1) c)) rem
          else c :: subScanF m fuel (some c) rest
      | none => c :: subScanF m fuel (some c) rest

def subScan (m : Matcher) (l : List Char) : List Char := subScanF m l.length none l

/-- The `while True` stutter-cleanup loop of `_clean_ai_output` step 3:
apply the loop sub and the word-stutter sub until the length stops
changing.  Both subs only ever shorten the text, so the loop runs at most
`length + 1` times; the fuel makes that a structural recursion. -/
def cleanLoopF : Nat → List Char → List Char
  | 0, l => l
  | fuel + 1, l =>
      let l2 := subScan mDedup (pyStrip (subScan mSubA l))
      if l2.length = l.length then l2 else cleanLoopF fuel l2

/-- `re.split(r'(?<=[.!?])\s+', text)`: split after sentence punctuation
followed by whitespace, consuming the whitespace run.  `acc` holds the
reversed current fragment (its head is the previous original char, giving
the lookbehind). -/
def sentSplitGo : Nat → List Char → List Char → List (List Char)
  | 0, acc, l => [acc.reverse ++ l]
  | _ + 1, acc, [] => [acc.reverse]
  | fuel + 1, acc, c :: rest =>
      if (match acc with
          | p :: _ => (p = '.' || p = '!' || p = '?')
          | [] => false) && isSpaceC c then
        acc.reverse :: sentSplitGo fuel [] (dropSpaces rest)
      else
        sentSplitGo fuel (c :: acc) rest

def sentSplit (l : List Char) : List (List Char) :=
  sentSplitGo (l.length + 1) [] l

/-- `s[0].upper() + s[1:]` (the empty fragment is kept unchanged). -/
def capHead : List Char → List Char
  | [] => []
  | c :: rest => upperC c :: rest

/-- `_clean_ai_output` step 5: split into sentences, capitalize each, and
rejoin with single spaces. -/
def capJoin (l : List Char) : List Char :=
  joinSpace ((sentSplit l).map capHead)

/-- `_clean_ai_output` step 1: strip markdown fences, then `strip()`. -/
def cleanStage1 (text : List Char) : List Char :=
  pyStrip (subScan mTripleTick (subScan mBacktickBlock text))

/-- `_clean_ai_output` step 1b: strip think/thought blocks. -/
def cleanStage2 (l : List Char) : List Char :=
  subScan mThought (subScan mThink l)

/-- `_clean_ai_output` step 2: the five artifact patterns, in order. -/
def cleanStage3 (l : List Char) : List Char :=
  subScan mP5 (subScan mP4 (subScan mP3 (subScan mP2 (subScan mP1 l))))

/-- `_clean_ai_output` step 3: the stutter-cleanup loop. -/
def cleanStage4 (l : List Char) : List Char :=
  cleanLoopF (l.length + 1) l

/-- `_clean_ai_output` step 4: whitespace and punctuation normalization. -/
def cleanStage5 (l : List Char) : List Char :=
  subScan mPunct (subScan mDots (pyStrip (subScan mWs l)))

/-- `_clean_ai_output` step 5: sentence capitalization (skipped on empty). -/
def cleanStage6 (l : List Char) : List Char :=
  if l = [] then l else capJoin l

/-- `LocalNLPService._clean_ai_output` with `prefixes=None` (the sanitizer;
all call sites relevant to the claims pass no prefixes). -/
def clean_ai_output (text : List Char) : List Char :=
  if text = [] then text
  else
    pyStrip (cleanStage6 (cleanStage5 (cleanStage4 (cleanStage3
      (cleanStage2 (cleanStage1 text))))))

/-! ## Deterministic text baseline (`LocalNLPService.rule_based_polish`) -/

/-- Filler pattern 1 of `rule_based_polish`, replaced by the empty string:
`\b(la|da|na|pa|dei|machan|ra|ga|umm|ahh|like|you\s+know|basically|actually|literally|meaning|what\s+happened|u\s+know|you\s+see|ya|ma|paa|nga|re|yaar)\b`
with IGNORECASE. -/
def mFillers1 : Matcher :=
  mAlt { alts := [[("la").toList], [("da").toList], [("na").toList],
                  [("pa").toList], [("dei").toList], [("machan").toList],
                  [("ra").toList], [("ga").toList], [("umm").toList],
                  [("ahh").toList], [("like").toList],
                  [("you").toList, ("know").toList],
                  [("basically").toList], [("actually").toList],
                  [("literally").toList], [("meaning").toList],
                  [("what").toList, ("happened").toList],
                  [("u").toList, ("know").toList],
                  [("you").toList, ("see").toList],
                  [("ya").toList], [("ma").toList], [("paa").toList],
                  [("nga").toList], [("re").toList], [("yaar").toList]],
         ci := true, trailB := true, wstar := false,
         tailStar := none, tailPlus := none, rep := [] }

/-- Filler pattern 2, replaced by the empty string:
`\b(seri|enna|epdi|romba|konjam|naan|poren|irukken|vandhu|nu|iru|va|solu|pannu|podu)\b`
(with `appram` as well) with IGNORECASE. -/
def mFillers2 : Matcher :=
  mAlt { alts := [[("seri").toList], [("enna").toList], [("epdi").toList],
                  [("romba").toList], [("konjam").toList], [("naan").toList],
                  [("poren").toList], [("irukken").toList],
                  [("vandhu").toList], [("appram").toList], [("nu").toList],
                  [("iru").toList], [("va").toList], [("solu").toList],
                  [("pannu").toList], [("podu").toList]],
         ci := true, trailB := true, wstar := false,
         tailStar := none, tailPlus := none, rep := [] }

/-- One grammar-map substitution `\bw1(\s+w2)?\b -> rep`, case-sensitive. -/
def mGrammar (alt : List (List Char)) (rep : List Char) : Matcher :=
  mAlt { alts := [alt], ci := false, trailB := true, wstar := false,
         tailStar := none, tailPlus := none, rep := rep }

/-- The nine grammar-map substitutions of `rule_based_polish` step 3, in
dict order, all case-sensitive. -/
def grammarSubs (l : List Char) : List Char :=
  subScan (mGrammar [("gotta").toList] (("got to").toList))
    (subScan (mGrammar [("wanna").toList] (("want to").toList))
      (subScan (mGrammar [("gonna").toList] (("going to").toList))
        (subScan (mGrammar [("they").toList, ("was").toList] (("they were").toList))
          (subScan (mGrammar [("we").toList, ("was").toList] (("we were").toList))
            (subScan (mGrammar [("you").toList, ("was").toList] (("you were").toList))
              (subScan (mGrammar [("i").toList, ("is").toList] (("I am").toList))
                (subScan (mGrammar [("a").toList, ("apple").toList] (("an apple").toList))
                  (subScan (mGrammar [("i").toList] (("I").toList)) l))))))))

/-- Step 4: adjacent-duplicate word removal.  Each word is kept unless it
equals (case-insensitively) the previous word of the original list. -/
def dedupAdjGo (prev : List Char) : List (List Char) → List (List Char)
  | [] => []
  | w :: rest =>
      if pyLower w = pyLower prev then dedupAdjGo w rest
      else w :: dedupAdjGo w rest

def dedupAdjacent (l : List Char) : List Char :=
  match pySplit l with
  | [] => l
  | [_] => l
  | w :: ws => joinSpace (w :: dedupAdjGo w ws)

/-- Step 7 of `rule_based_polish`: capitalize each sentence after
stripping it.  `none` models the `IndexError` Python would raise on
`s[0]` when a non-empty fragment strips to the empty string (proved
unreachable below). -/
def cap7 : List (List Char) → Option (List (List Char))
  | [] => some []
  | s :: rest =>
      if s = [] then cap7 rest
      else
        match pyStrip s with
        | [] => none
        | c :: cs => (cap7 rest).map (fun fs => (upperC c :: cs) :: fs)

def polishStep7 (l : List Char) : Option (List Char) :=
  (cap7 (sentSplit l)).map (fun fs => pyStrip (joinSpace fs))

def fallbackEmptyText : List Char :=
  ("A legacy of moments and memories.").toList

def fallbackShortText : List Char :=
  ("This chapter of life is being recounted with great care.").toList

/-- Steps 1-4 of `rule_based_polish`: ASCII filter, the two filler
substitutions, the grammar map, adjacent-word dedup. -/
def polishPrep (text : List Char) : List Char :=
  dedupAdjacent (grammarSubs (subScan mFillers2
    (subScan mFillers1 (text.filter isAsciiC))))

/-- `LocalNLPService.rule_based_polish`.  `none` models a raised
exception (only possible, a priori, at the `s[0]` index of step 7). -/
def rule_based_polish (text : List Char) : Option (List Char) :=
  if text = [] then some fallbackEmptyText
  else
    if clean_ai_output (polishPrep text) = [] ∨
        (pyStrip (clean_ai_output (polishPrep text))).length < 5 then
      some fallbackShortText
    else polishStep7 (clean_ai_output (polishPrep text))

/-! ## Normalization predicates for the sanitizer

`SanitizedStr` is a decidable syntactic condition under which every
substitution pass of `_clean_ai_output` is the identity: no pattern
matches anywhere, whitespace is already single ASCII spaces with clean
edges, and every sentence already starts with an upper-fixed character. -/

/-- Does the matcher fail at every scan position (with `\b` lookbehind
threaded as in `subScanF`)? -/
def noMatchScanF (m : Matcher) : Nat → Option Char → List Char → Bool
  | 0, _, _ => true
  | _ + 1, _, [] => true
  | fuel + 1, prev, c :: rest =>
      (m prev (c :: rest)).isNone && noMatchScanF m fuel (some c) rest

def noMatchAll (m : Matcher) (l : List Char) : Bool := noMatchScanF m l.length none l

/-- Every whitespace char is a plain space. -/
def spacesAreSP (l : List Char) : Bool := l.all (fun c => !(isSpaceC c) || c = ' ')

/-- No two adjacent whitespace chars. -/
def noAdjSpace : List Char → Bool
  | c :: d :: rest => !(isSpaceC c && isSpaceC d) && noAdjSpace (d :: rest)
  | _ => true

def headNoSpace : List Char → Bool
  | [] => true
  | c :: _ => !(isSpaceC c)

def lastNoSpace (l : List Char) : Bool :=
  match l.getLast? with
  | some c => !(isSpaceC c)
  | none => true

def isNormWS (l : List Char) : Bool :=
  spacesAreSP l && noAdjSpace l && headNoSpace l && lastNoSpace l

/-- Every sentence fragment starts with a character fixed by `upper()`. -/
def headsUpperFixed (l : List Char) : Bool :=
  (sentSplit l).all (fun f => capHead f = f)

def SanitizedStr (l : List Char) : Bool :=
  noMatchAll mBacktickBlock l && noMatchAll mTripleTick l &&
  noMatchAll mThink l && noMatchAll mThought l &&
  noMatchAll mP1 l && noMatchAll mP2 l && noMatchAll mP3 l &&
  noMatchAll mP4 l && noMatchAll mP5 l &&
  noMatchAll mSubA l && noMatchAll mDedup l &&
  noMatchAll mDots l && noMatchAll mPunct l &&
  isNormWS l && headsUpperFixed l

/-- Matchers whose replacement and remainder both satisfy a character
predicate when the input does. -/
def MatcherPres (p : Char → Bool) (m : Matcher) : Prop :=
  ∀ prev l rep rem, m prev l = some (rep, rem) → l.all p = true →
    rep.all p = true ∧ rem.all p = true

/-- Whether the previous character (head of the reversed accumulator) is
sentence punctuation. -/
def accPunct (acc : List Char) : Bool :=
  match acc with
  | p :: _ => (p = '.' || p = '!' || p = '?')
  | [] => false

/-- Matchers that are safe for whitespace-normalized text: replacements
are non-empty and whitespace-free, the remainder is a suffix of the text,
and nothing matches at a whitespace character. -/
structure NormSafe (m : Matcher) : Prop where
  rep_spec : ∀ prev l rep rem, m prev l = some (rep, rem) →
    rep ≠ [] ∧ rep.all (fun c => !(isSpaceC c)) = true ∧ rem <:+ l
  no_space_head : ∀ prev c rest, isSpaceC c = true → m prev (c :: rest) = none

/-! ## Structural book fallback (`LocalNLPService._thematic_book_fallback`)

The spaCy branch is environment-dependent; the deterministic in-repo path
splits sentences with the same `re.split(r'(?<=[.!?])\s+', ...)` pattern
as the sanitizer.  The network-dependent calls `refine_text` and
`summarize` on each chapter are abstracted as function parameters; the
`except` branch of the method returns `_get_empty_book`. -/

structure Chapter where
  chapter_title : List Char
  chapter_summary : List Char
  content : List Char
deriving DecidableEq, Repr

structure Book where
  title : List Char
  subtitle : List Char
  chapters : List Chapter
deriving DecidableEq, Repr

/-- `LocalNLPService._get_empty_book`. -/
def get_empty_book (title : List Char) : Book :=
  { title := title
    subtitle := ("A journey of legacy").toList
    chapters := [{ chapter_title := ("Our Legacy").toList
                   chapter_summary := ("Initial entry").toList
                   content := ("The story begins...").toList }] }

def pivots : List (List Char) :=
  [("then").toList, ("later").toList, ("moved").toList, ("born").toList,
   ("school").toList, ("college").toList, ("work").toList, ("career").toList,
   ("married").toList, ("children").toList, ("finally").toList, ("today").toList,
   ("chennai").toList, ("india").toList, ("home").toList, ("university").toList,
   ("job").toList, ("retirement").toList, ("village").toList, ("city").toList]

/-- `chapter_groups[-1] += " " + txt`. -/
def updateLast (groups : List (List Char)) (txt : List Char) : List (List Char) :=
  match groups with
  | [] => []
  | [g] => [g ++ ' ' :: txt]
  | g :: rest => g :: updateLast rest txt

/-- The sentence-grouping loop of `_thematic_book_fallback`. -/
def groupGo : List (List Char) → List (List Char) → List (List Char) →
    List (List Char)
  | groups, _, [] => groups
  | groups, current, sent :: rest =>
      let current2 := current ++ [sent]
      let isPivot := (pivots.any (fun p => containsSub p (pyLower sent)))
                       && decide (8 < current2.length)
      if (isPivot || rest.isEmpty) && decide (5 ≤ current2.length) then
        groupGo (groups ++ [joinSpace current2]) [] rest
      else if rest.isEmpty && !(current2.isEmpty) then
        match groups with
        | [] => [joinSpace current2]
        | _ :: _ => updateLast groups (joinSpace current2)
      else groupGo groups current2 rest

/-- First index of minimal length (ties to the earliest), as the Python
linear scan computes it. -/
def minIdxGo : List (List Char) → Nat → Nat → Nat → Nat
  | [], _, best, _ => best
  | g :: rest, k, best, bestLen =>
      if g.length < bestLen then minIdxGo rest (k + 1) k g.length
      else minIdxGo rest (k + 1) best bestLen

def minIdx : List (List Char) → Nat
  | [] => 0
  | g :: rest => minIdxGo rest 1 0 g.length

/-- Merge group `i` into group `i-1` (for `i = 0` the code merges group 0
with group 1, which is `mergeAt 1`). -/
def mergeAt : Nat → List (List Char) → List (List Char)
  | _, [] => []
  | 0, gs => gs
  | 1, [g] => [g]
  | 1, g0 :: g1 :: rest => (g0 ++ ' ' :: g1) :: rest
  | n + 2, g0 :: rest => g0 :: mergeAt (n + 1) rest

def mergeStep (gs : List (List Char)) : List (List Char) :=
  mergeAt (if minIdx gs = 0 then 1 else minIdx gs) gs

/-- The `while len(chapter_groups) > 5` merge loop, fuel-structured. -/
def mergeLoopF : Nat → List (List Char) → List (List Char)
  | 0, gs => gs
  | fuel + 1, gs => if 5 < gs.length then mergeLoopF fuel (mergeStep gs) else gs

def natToChars (n : Nat) : List Char := (toString n).toList

/-- Chapter construction (spaCy absent, so every title is
`f"{i+1}. Master Narrative"`); `refineF` and `sumF` stand for the
`refine_text` and `summarize` calls. -/
def buildChapters (refineF sumF : List Char → List Char) :
    Nat → List (List Char) → List Chapter
  | _, [] => []
  | i, g :: rest =>
      { chapter_title := natToChars (i + 1) ++ (". Master Narrative").toList
        chapter_summary := sumF (refineF g)
        content := refineF g } :: buildChapters refineF sumF (i + 1) rest

/-- `LocalNLPService._thematic_book_fallback` (regex sentence path,
successful `refine`/`summarize` calls). -/
def thematic_book_fallback (refineF sumF : List Char → List Char)
    (transcript title : List Char) : Book :=
  if sentSplit transcript = [] then get_empty_book title
  else
    let groups := mergeLoopF (groupGo [] [] (sentSplit transcript)).length
                    (groupGo [] [] (sentSplit transcript))
    { title := title
      subtitle := ("A Masterfully Chronicled Legacy").toList
      chapters := buildChapters refineF sumF 0 groups }

/-! ## Cloud tier retry loops (`story_writer._safe_ai_call`,
`image_generator._safe_gemini_call`) -/

inductive GeminiOutcome (V : Type)
  | ok (v : V)
  | transient (e : List Char)
  | fatal (e : List Char)

/-- The Gemini fallback loop of `StoryWriterService._safe_ai_call`:
per attempt, the outcome of `gemini_fallback()` and, on a transient
error, the outcome of the alternate-model retry (`none` when no untried
model is available).  On a transient error with `attempt <
max_retries - 1` the loop sleeps `0.5 + random.random()` seconds; the
first component of the result is the produced value, the second the list
of waits. -/
def geminiLoop {V : Type} (jit : Nat → ℚ) :
    Nat → Nat → List (GeminiOutcome V × Option (Except (List Char) V)) →
    Option V × List ℚ
  | _, _, [] => (none, [])
  | 0, _, _ => (none, [])
  | remaining + 1, attempt, (out, shuffle) :: restOuts =>
      match out with
      | .ok v => (some v, [])
      | .fatal _ => (none, [])
      | .transient _ =>
          match shuffle with
          | some (.ok v) => (some v, [])
          | _ =>
              if remaining = 0 then (none, [])
              else
                let p := geminiLoop jit remaining (attempt + 1) restOuts
                (p.1, (1 / 2 + jit attempt) :: p.2)

/-- `StoryWriterService._safe_ai_call`: OpenAI primary, Gemini loop,
local fallback, then the default value.  Every tier failure is caught;
the function is total.  (`retry_callback` is progress-reporting only and
is omitted.) -/
def safe_ai_call {V : Type}
    (openaiAvail : Bool) (openaiResult : Except (List Char) V)
    (geminiAvail : Bool) (maxRetries : Nat)
    (geminiAttempts : List (GeminiOutcome V × Option (Except (List Char) V)))
    (jit : Nat → ℚ)
    (localF : Option (Except (List Char) V))
    (default : Option V) : Option V × List ℚ :=
  let localOr : List ℚ → Option V × List ℚ := fun ws =>
    match localF with
    | some (.ok v) => (some v, ws)
    | some (.error _) => (default, ws)
    | none => (default, ws)
  let afterCloud : Option V × List ℚ :=
    if geminiAvail then
      let p := geminiLoop jit maxRetries 0 geminiAttempts
      match p.1 with
      | some v => (some v, p.2)
      | none => localOr p.2
    else localOr []
  if openaiAvail then
    match openaiResult with
    | .ok v => (some v, [])
    | .error _ => afterCloud
  else afterCloud

/-- `ImageGeneratorService._safe_gemini_call` body: `for attempt in
range(max_retries + 1)`, with `wait = 2**attempt + random.random()*2` on
a transient error before the last attempt; any other exception returns
`fallback_value`. -/
def sgcGo {V : Type} (maxRetries : Nat) (outcomes : Nat → GeminiOutcome V)
    (jit : Nat → ℚ) (fallback : Option V) : Nat → Nat → Option V × List ℚ
  | 0, _ => (fallback, [])
  | remaining + 1, attempt =>
      match outcomes attempt with
      | .ok v => (some v, [])
      | .fatal _ => (fallback, [])
      | .transient _ =>
          if attempt = maxRetries then (fallback, [])
          else
            let p := sgcGo maxRetries outcomes jit fallback remaining (attempt + 1)
            (p.1, (2 ^ attempt + 2 * jit attempt) :: p.2)

def safe_gemini_call {V : Type} (maxRetries : Nat)
    (outcomes : Nat → GeminiOutcome V) (jit : Nat → ℚ) (fallback : Option V) :
    Option V × List ℚ :=
  sgcGo maxRetries outcomes jit fallback (maxRetries + 1) 0

/-! ## Transcription cascade (`transcription.py`) -/

inductive PyExc
  | fileNotFound (msg : List Char)
  | valueError (msg : List Char)
  | exc (msg : List Char)
deriving DecidableEq, Repr

structure TranscribeOut where
  text : List Char
  duration : ℚ
  source : List Char
deriving DecidableEq, Repr

def SUPPORTED_FORMATS : List (List Char) :=
  [("wav").toList, ("mp3").toList, ("webm").toList, ("ogg").toList,
   ("m4a").toList, ("flac").toList, ("mp4").toList]

/-- `TranscriptionService.transcribe`; `ext` is the already-lowercased
extension from `file_path.rsplit(".", 1)[-1].lower()`, and the two tier
calls are modelled by their outcomes.  The final `raise` re-raises the
local error. -/
def transcribe (fileExists : Bool) (ext : List Char)
    (cloud : Except (List Char) (List Char × ℚ))
    (localT : Except (List Char) (List Char)) : Except PyExc TranscribeOut :=
  if !fileExists then
    .error (.fileNotFound (("Audio file not found").toList))
  else if !(SUPPORTED_FORMATS.any (fun f => f = ext)) then
    .error (.valueError (("Unsupported audio format").toList))
  else
    match cloud with
    | .ok (t, d) => .ok ⟨t, d, ("openai").toList⟩
    | .error _ =>
        match localT with
        | .ok t => .ok ⟨t, 0, ("local").toList⟩
        | .error e => .error (.exc e)

/-! ## Image generation cascade (`image_generator.generate_chapter_image`) -/

inductive ImageSource
  | openai
  | pollinations
  | lexica
  | aihorde
  | placeholder
deriving DecidableEq, Repr

/-- `ImageGeneratorService.generate_chapter_image`: each network call is
modelled by its outcome; `lexicaUrl`/`hordeUrl` are the option-valued
results of the internally-catching helpers.  Total: every branch returns
a source. -/
def generate_chapter_image (openaiAvail : Bool)
    (dalle : Except (List Char) (List Char))
    (pollinationsHead : Except (List Char) (Nat × Bool))
    (lexicaUrl hordeUrl : Option (List Char)) : ImageSource × List Char :=
  let tier2 : ImageSource × List Char :=
    match pollinationsHead with
    | .ok (status, isImage) =>
        if status = 200 && isImage then
          (ImageSource.pollinations, ("pollinations-url").toList)
        else
          match lexicaUrl with
          | some url => (ImageSource.lexica, url)
          | none =>
              match hordeUrl with
              | some url => (ImageSource.aihorde, url)
              | none => (ImageSource.placeholder, ("LOCAL_PLACEHOLDER").toList)
    | .error _ =>
        match lexicaUrl with
        | some url => (ImageSource.lexica, url)
        | none =>
            match hordeUrl with
            | some url => (ImageSource.aihorde, url)
            | none => (ImageSource.placeholder, ("LOCAL_PLACEHOLDER").toList)
  if openaiAvail then
    match dalle with
    | .ok url => (ImageSource.openai, url)
    | .error _ => tier2
  else tier2

/-! ## Local refinement pipeline (`local_nlp._call_ollama`,
`local_nlp.refine_text`) -/

inductive OllamaOutcome
  | ok (response : List Char)
  | badStatus
  | timeout
  | connRefused
  | otherExc

/-- `LocalNLPService._call_ollama`: iterate the priority models; a 200
response returns its stripped text, a timeout or generic error moves to
the next model, a refused connection raises `ConnectionError` at once;
exhaustion returns `None`. -/
def call_ollama : List OllamaOutcome → Except (List Char) (Option (List Char))
  | [] => .ok none
  | o :: rest =>
      match o with
      | .ok r => .ok (some (pyStrip r))
      | .badStatus => call_ollama rest
      | .timeout => call_ollama rest
      | .connRefused => .error (("Ollama Offline").toList)
      | .otherExc => call_ollama rest

def is_junk_opt : Option (List Char) → Bool
  | none => true
  | some t => is_junk t

/-- `LocalNLPService.refine_text` with `adaptive=False`: the three staged
Ollama calls plus the rescue call, the transformer fallback, and the
rule-based baseline.  The stage-1 and stage-2 calls sit outside any
`try`, so a `ConnectionError` raised there propagates out of the method;
only stage 3 and the transformer tier are protected. -/
def refine_text_local (text : List Char) (o1 o2 o3 oR : List OllamaOutcome)
    (rephraser : Option (List Char → List Char)) :
    Except (List Char) (List Char) :=
  if text = [] ∨ (pyStrip text).length < 5 then .ok text
  else
    match call_ollama o1 with
    | .error e => .error e
    | .ok _c1 =>
        match call_ollama o2 with
        | .error e => .error e
        | .ok _c2 =>
            let tier1 : Option (List Char) :=
              match call_ollama o3 with
              | .error _ => none
              | .ok fp =>
                  match (if is_junk_opt fp then call_ollama oR else .ok fp) with
                  | .error _ => none
                  | .ok fp2 =>
                      match fp2 with
                      | some t =>
                          if is_junk t = false then some (clean_ai_output t)
                          else none
                      | none => none
            match tier1 with
            | some r => .ok r
            | none =>
                let tierBase : Except (List Char) (List Char) :=
                  match rule_based_polish text with
                  | some r => .ok r
                  | none => .error (("IndexError").toList)
                match rephraser with
                | some f =>
                    if is_junk (f text) = false then .ok (clean_ai_output (f text))
                    else tierBase
                | none => tierBase

/-- `StoryWriterService.refine_text`: `_safe_ai_call` with the local
refinement as final fallback and `default_value=raw_text`
(`max_retries=2`). -/
def story_refine_text (raw : List Char)
    (openaiAvail : Bool) (openaiResult : Except (List Char) (List Char))
    (geminiAvail : Bool)
    (geminiAttempts :
      List (GeminiOutcome (List Char) × Option (Except (List Char) (List Char))))
    (jit : Nat → ℚ) (o1 o2 o3 oR : List OllamaOutcome)
    (rephraser : Option (List Char → List Char)) :
    Option (List Char) × List ℚ :=
  safe_ai_call openaiAvail openaiResult geminiAvail 2 geminiAttempts jit
    (some (refine_text_local raw o1 o2 o3 oR rephraser))
    (some raw)

/-- The backoff schedule the spec prescribes for exponential retry: one
wait per retried attempt, `2 ^ attempt` plus twice a unit jitter draw
(`random.random() * 2` is a value in `[0, 2)`).  Stated from the spec, to
be compared against the waits the code actually emits. -/
def expBackoffWaits (jit : Nat → ℚ) : Nat → Nat → List ℚ
  | _, 0 => []
  | attempt, n + 1 =>
      (2 ^ attempt + 2 * jit attempt) :: expBackoffWaits jit (attempt + 1) n

/-- A Gemini attempt that produces no value: the fallback call does not
succeed and neither does the shuffled alternate model (when tried). -/
def geminiAttemptFailed {V : Type}
    (p : GeminiOutcome V × Option (Except (List Char) V)) : Prop :=
  (∀ v, p.1 ≠ GeminiOutcome.ok v) ∧ (∀ v, p.2 ≠ some (Except.ok v))

/-- A coherent 50-word English ASCII paragraph with no meta-commentary marker. -/
def coherentParagraph : List Char :=
  ("When I was young my family lived beside a quiet river in a small southern town. Every morning we walked together to the market, greeted our neighbours warmly, and listened to my grandmother tell long stories about courage, patience, and the gentle wisdom that carried our people through difficult years.").toList

end Vansh

namespace Vansh

/-! ## Theorems about the Guardian supervisor -/

theorem regGet_regSet_self (reg : Registry) (name : List Char) (r : ServiceRecord) :
    regGet (regSet reg name r) name = some r := by
  induction reg with
  | nil => simp [regSet, regGet]
  | cons p rest ih =>
      obtain ⟨n, r0⟩ := p
      by_cases h : n = name
      · simp [regSet, regGet, h]
      · simp [regSet, regGet, h, ih]

theorem regGet_report_failure_self (reg : Registry) (name err : List Char) :
    regGet (report_failure reg name err) name =
      some ⟨if 3 < ((regGet reg name).map ServiceRecord.failures).getD 0 + 1
              then Status.OFFLINE else Status.DEGRADED,
            ((regGet reg name).map ServiceRecord.failures).getD 0 + 1,
            some err⟩ := by
  unfold report_failure
  exact regGet_regSet_self ..

/-- C2: `safe_execute` never raises; with a raising primary and raising
fallback it returns exactly the default and the registry is exactly the
failure-recorded one; with a raising primary and a succeeding fallback it
returns the fallback value with the same single failure record, whose
counter is the old counter plus one and whose status is not ONLINE. -/
theorem safe_execute_failover {α : Type} (reg : Registry) (name e1 e2 : List Char)
    (v d : α) :
    safe_execute reg name (.error e1) (some (.error e2)) d
      = (d, report_failure reg name e1)
    ∧ safe_execute reg name (.error e1) (some (.ok v)) d
      = (v, report_failure reg name e1)
    ∧ (regGet (report_failure reg name e1) name).map ServiceRecord.failures
      = some (((regGet reg name).map ServiceRecord.failures).getD 0 + 1)
    ∧ ∀ r, regGet (report_failure reg name e1) name = some r →
        r.status ≠ Status.ONLINE := by
  refine ⟨rfl, rfl, ?_, ?_⟩
  · rw [regGet_report_failure_self, Option.map_some']
  · intro r hr
    rw [regGet_report_failure_self] at hr
    cases hr
    by_cases h : 3 < ((regGet reg name).map ServiceRecord.failures).getD 0 + 1 <;>
      simp [h]

theorem safe_execute_failover_witness :
    safe_execute (α := Nat) [] ("svc".toList) (.error ("boom".toList))
        (some (.error ("boom2".toList))) 7
      = (7, report_failure [] ("svc".toList) ("boom".toList))
    ∧ safe_execute (α := Nat) [] ("svc".toList) (.error ("boom".toList))
        (some (.ok 3)) 7
      = (3, report_failure [] ("svc".toList) ("boom".toList)) :=
  ⟨(safe_execute_failover [] ("svc".toList) ("boom".toList) ("boom2".toList) 3 7).1,
   (safe_execute_failover [] ("svc".toList) ("boom".toList) ("boom2".toList) 3 7).2.1⟩

theorem any_offline_of_regGet (reg : Registry) (name : List Char)
    (r : ServiceRecord) (hget : regGet reg name = some r)
    (hst : r.status = Status.OFFLINE) :
    reg.any (fun p => p.2.status = Status.OFFLINE) = true := by
  induction reg with
  | nil => simp [regGet] at hget
  | cons p rest ih =>
      obtain ⟨n, r0⟩ := p
      by_cases h : n = name
      · rw [regGet, if_pos h] at hget
        cases hget
        simp [List.any, hst]
      · rw [regGet, if_neg h] at hget
        simp [List.any, ih hget]

/-- C4: from a fresh registry, four consecutive `report_failure` calls for
a service drive its status to OFFLINE (and `get_status_report` shows
CRITICAL); in general the status right after a `report_failure` is OFFLINE
exactly when the new counter exceeds 3; one subsequent `report_success`
yields status ONLINE with the failure counter equal to 0. -/
theorem four_failures_offline_then_success_online
    (name e1 e2 e3 e4 : List Char) :
    regGet (report_failure (report_failure (report_failure
        (report_failure [] name e1) name e2) name e3) name e4) name
      = some ⟨Status.OFFLINE, 4, some e4⟩
    ∧ (get_status_report (report_failure (report_failure (report_failure
        (report_failure [] name e1) name e2) name e3) name e4)).1
      = SystemStatus.CRITICAL
    ∧ (∀ reg err r, regGet (report_failure reg name err) name = some r →
        (r.status = Status.OFFLINE ↔
          3 < ((regGet reg name).map ServiceRecord.failures).getD 0 + 1))
    ∧ regGet (report_success (report_failure (report_failure (report_failure
        (report_failure [] name e1) name e2) name e3) name e4) name) name
      = some ⟨Status.ONLINE, 0, none⟩ := by
  have h1 : regGet (report_failure [] name e1) name
      = some ⟨Status.DEGRADED, 1, some e1⟩ := by
    rw [regGet_report_failure_self]; simp [regGet]
  have h2 : regGet (report_failure (report_failure [] name e1) name e2) name
      = some ⟨Status.DEGRADED, 2, some e2⟩ := by
    rw [regGet_report_failure_self, h1]; simp
  have h3 : regGet (report_failure (report_failure (report_failure [] name e1)
      name e2) name e3) name = some ⟨Status.DEGRADED, 3, some e3⟩ := by
    rw [regGet_report_failure_self, h2]; simp
  have h4 : regGet (report_failure (report_failure (report_failure
      (report_failure [] name e1) name e2) name e3) name e4) name
      = some ⟨Status.OFFLINE, 4, some e4⟩ := by
    rw [regGet_report_failure_self, h3]; simp
  refine ⟨h4, ?_, ?_, ?_⟩
  · unfold get_status_report
    have hany : (report_failure (report_failure (report_failure
          (report_failure [] name e1) name e2) name e3) name e4).any
        (fun p => p.2.status = Status.OFFLINE) = true :=
      any_offline_of_regGet _ name _ h4 rfl
    simp [hany]
  · intro reg err r hr
    rw [regGet_report_failure_self] at hr
    cases hr
    by_cases h : 3 < ((regGet reg name).map ServiceRecord.failures).getD 0 + 1 <;>
      simp [h]
  · unfold report_success
    exact regGet_regSet_self ..

theorem four_failures_offline_then_success_online_witness :
    regGet (report_failure (report_failure (report_failure
        (report_failure [] ("svc".toList) ("e".toList)) ("svc".toList) ("e".toList))
        ("svc".toList) ("e".toList)) ("svc".toList) ("e".toList)) ("svc".toList)
      = some ⟨Status.OFFLINE, 4, some ("e".toList)⟩ :=
  (four_failures_offline_then_success_online ("svc".toList)
    ("e".toList) ("e".toList) ("e".toList) ("e".toList)).1

/-- C10: with `fallback=None` and a non-None `default`, the decorator still
constructs a (non-None) fallback closure that evaluates to `None`, so when
the wrapped function raises, `safe_execute` takes the fallback branch and
the wrapper returns `None` rather than the default value. -/
theorem with_guardian_none_fallback_shadows_default {V : Type}
    (reg : Registry) (name e : List Char) (d : V) :
    (with_guardian_wrapper reg name (.error e) none (some d)).1 = none
    ∧ (with_guardian_wrapper reg name (.error e) none (some d)).1 ≠ some d := by
  constructor
  · rfl
  · intro h
    exact Option.noConfusion h

theorem with_guardian_none_fallback_shadows_default_witness :
    (with_guardian_wrapper (V := Nat) [] ("svc".toList) (.error ("boom".toList))
        none (some 5)).1 = none :=
  (with_guardian_none_fallback_shadows_default (V := Nat) [] ("svc".toList)
    ("boom".toList) 5).1

end Vansh

namespace Vansh

/-! ## Theorems about the quality gate -/

/-- C7: `is_junk` is true for any text whose trimmed length is below 5
(including the empty string); it is true for any text with more than 20
whitespace tokens whose distinct-token ratio (case-insensitive) is below
0.30; and it is false on a coherent 50-word English ASCII paragraph
containing no meta-commentary marker. -/
theorem is_junk_gate :
    (∀ text : List Char, (pyStrip text).length < 5 → is_junk text = true)
    ∧ (∀ text : List Char,
        20 < (pySplit (pyLower text)).length →
        10 * distinctCount (pySplit (pyLower text)) <
          3 * (pySplit (pyLower text)).length →
        is_junk text = true)
    ∧ is_junk coherentParagraph = false := by
  refine ⟨?_, ?_, ?_⟩
  · intro text h
    unfold is_junk
    rw [if_pos (Or.inr h)]
  · intro text h20 hratio
    unfold is_junk
    by_cases h1 : text = [] ∨ (pyStrip text).length < 5
    · rw [if_pos h1]
    · rw [if_neg h1]
      by_cases h2 : 3 * text.length < 10 * countNonAscii text
      · rw [if_pos h2]
      · rw [if_neg h2, if_pos ⟨h20, hratio⟩]
  · decide

theorem is_junk_gate_witness :
    is_junk ("ok".toList) = true
    ∧ is_junk ("go go go go go go go go go go go go go go go go go go go go go".toList)
        = true :=
  ⟨is_junk_gate.1 ("ok".toList) (by decide),
   is_junk_gate.2.1
     ("go go go go go go go go go go go go go go go go go go go go go".toList)
     (by decide) (by decide)⟩

end Vansh


namespace Vansh

/-! ## Character-level lemmas -/

theorem charToNat_injective : Function.Injective Char.toNat :=
  StrictMono.injective (fun _ _ a => a)

theorem char_eq_iff_toNat {a b : Char} : a = b ↔ a.toNat = b.toNat :=
  ⟨fun h => by rw [h], fun h => charToNat_injective h⟩

theorem toNat_ofNat_valid {n : Nat} (h : n < 55296) : (Char.ofNat n).toNat = n := by
  unfold Char.ofNat
  rw [dif_pos (Or.inl h)]
  rfl

theorem isSpaceC_iff {c : Char} :
    isSpaceC c = true ↔
      (c.toNat = 32 ∨ c.toNat = 9 ∨ c.toNat = 10 ∨ c.toNat = 13 ∨
       c.toNat = 11 ∨ c.toNat = 12) := by
  constructor
  · intro h
    unfold isSpaceC at h
    simp only [Bool.or_eq_true, decide_eq_true_eq] at h
    rcases h with ((((h | h) | h) | h) | h) | h <;> subst h <;> decide
  · intro h
    have hc : c = ' ' ∨ c = '\t' ∨ c = '\n' ∨ c = '\r' ∨
        c = Char.ofNat 11 ∨ c = Char.ofNat 12 := by
      rcases h with h | h | h | h | h | h
      · exact Or.inl (char_eq_iff_toNat.mpr (by rw [h]; decide))
      · exact Or.inr (Or.inl (char_eq_iff_toNat.mpr (by rw [h]; decide)))
      · exact Or.inr (Or.inr (Or.inl (char_eq_iff_toNat.mpr (by rw [h]; decide))))
      · exact Or.inr (Or.inr (Or.inr (Or.inl
          (char_eq_iff_toNat.mpr (by rw [h]; decide)))))
      · exact Or.inr (Or.inr (Or.inr (Or.inr (Or.inl
          (char_eq_iff_toNat.mpr (by rw [h]; decide))))))
      · exact Or.inr (Or.inr (Or.inr (Or.inr (Or.inr
          (char_eq_iff_toNat.mpr (by rw [h]; decide))))))
    rcases hc with h | h | h | h | h | h <;> subst h <;> decide

theorem upperC_of_space {c : Char} (h : isSpaceC c = true) : upperC c = c := by
  rw [isSpaceC_iff] at h
  unfold upperC
  rw [if_neg]
  omega

theorem isSpaceC_upperC (c : Char) : isSpaceC (upperC c) = isSpaceC c := by
  by_cases h : isSpaceC c = true
  · rw [upperC_of_space h]
  · have hfc : isSpaceC c = false := by rwa [Bool.not_eq_true] at h
    unfold upperC
    by_cases hr : 97 ≤ c.toNat ∧ c.toNat ≤ 122
    · rw [if_pos hr, hfc]
      have hv : (Char.ofNat (c.toNat - 32)).toNat = c.toNat - 32 :=
        toNat_ofNat_valid (by omega)
      rw [Bool.eq_false_iff]
      intro hx
      rw [isSpaceC_iff, hv] at hx
      omega
    · rw [if_neg hr]

theorem isAsciiC_upperC {c : Char} (h : isAsciiC c = true) :
    isAsciiC (upperC c) = true := by
  unfold isAsciiC at *
  simp only [decide_eq_true_eq] at *
  unfold upperC
  by_cases hr : 97 ≤ c.toNat ∧ c.toNat ≤ 122
  · rw [if_pos hr]
    have hv : (Char.ofNat (c.toNat - 32)).toNat = c.toNat - 32 :=
      toNat_ofNat_valid (by omega)
    omega
  · rw [if_neg hr]
    exact h

end Vansh

namespace Vansh

/-! ## Strip and normalization-predicate lemmas -/

theorem headNoSpace_cons {c : Char} {r : List Char} :
    headNoSpace (c :: r) = !(isSpaceC c) := rfl

theorem pyLStrip_of_headNoSpace {l : List Char} (h : headNoSpace l = true) :
    pyLStrip l = l := by
  cases l with
  | nil => rfl
  | cons c rest =>
      rw [headNoSpace_cons, Bool.not_eq_true'] at h
      unfold pyLStrip
      rw [h]
      rfl

theorem lastNoSpace_cons_of_ne {c : Char} {rest : List Char} (h : rest ≠ []) :
    lastNoSpace (c :: rest) = lastNoSpace rest := by
  cases rest with
  | nil => exact absurd rfl h
  | cons d t =>
      unfold lastNoSpace
      rw [List.getLast?_cons_cons]

theorem lastNoSpace_singleton {c : Char} : lastNoSpace [c] = !(isSpaceC c) := by
  unfold lastNoSpace
  rfl

theorem pyRStrip_of_lastNoSpace {l : List Char} (h : lastNoSpace l = true) :
    pyRStrip l = l := by
  induction l with
  | nil => rfl
  | cons c rest ih =>
      by_cases hr : rest = []
      · subst hr
        rw [lastNoSpace_singleton, Bool.not_eq_true'] at h
        unfold pyRStrip
        rw [h]
        rfl
      · rw [lastNoSpace_cons_of_ne hr] at h
        have hrw := ih h
        unfold pyRStrip
        rw [hrw]
        cases hx : rest with
        | nil => exact absurd hx hr
        | cons d t => rfl

theorem headNoSpace_pyRStrip {l : List Char} (h : headNoSpace l = true) :
    headNoSpace (pyRStrip l) = true := by
  cases l with
  | nil => rfl
  | cons c rest =>
      unfold pyRStrip
      cases hx : pyRStrip rest with
      | nil =>
          by_cases hs : isSpaceC c
          · rw [if_pos hs]; rfl
          · rw [if_neg hs]
            rw [headNoSpace_cons]
            rw [headNoSpace_cons] at h
            exact h
      | cons d t =>
          rw [headNoSpace_cons] at h ⊢
          exact h

theorem pyStrip_of_norm {l : List Char}
    (h1 : headNoSpace l = true) (h2 : lastNoSpace l = true) :
    pyStrip l = l := by
  unfold pyStrip
  rw [pyLStrip_of_headNoSpace h1, pyRStrip_of_lastNoSpace h2]

theorem noAdjSpace_cons {c : Char} {xs : List Char} :
    noAdjSpace (c :: xs) = true ↔
      ((isSpaceC c = true → headNoSpace xs = true) ∧ noAdjSpace xs = true) := by
  cases xs with
  | nil =>
      constructor
      · intro _; exact ⟨fun _ => rfl, rfl⟩
      · intro _; rfl
  | cons d t =>
      simp only [noAdjSpace, headNoSpace, Bool.and_eq_true, Bool.not_eq_true']
      constructor
      · rintro ⟨h1, h2⟩
        refine ⟨fun hc => ?_, h2⟩
        rw [hc] at h1
        simpa using h1
      · rintro ⟨h1, h2⟩
        refine ⟨?_, h2⟩
        cases hc : isSpaceC c
        · simp
        · have := h1 hc
          simpa using this

theorem noAdjSpace_append_right {a b : List Char}
    (h : noAdjSpace (a ++ b) = true) : noAdjSpace b = true := by
  induction a with
  | nil => exact h
  | cons c rest ih =>
      rw [List.cons_append, noAdjSpace_cons] at h
      exact ih h.2

theorem headNoSpace_append_left {a b : List Char} (ha : a ≠ []) :
    headNoSpace (a ++ b) = headNoSpace a := by
  cases a with
  | nil => exact absurd rfl ha
  | cons c rest => rfl

theorem noAdjSpace_append {a b : List Char}
    (ha : noAdjSpace a = true) (hb : noAdjSpace b = true)
    (hmid : lastNoSpace a = true ∨ headNoSpace b = true) :
    noAdjSpace (a ++ b) = true := by
  induction a with
  | nil => simpa using hb
  | cons c rest ih =>
      rw [noAdjSpace_cons] at ha
      rw [List.cons_append, noAdjSpace_cons]
      by_cases hr : rest = []
      · subst hr
        refine ⟨fun hc => ?_, by simpa using hb⟩
        rcases hmid with hml | hmb
        · rw [lastNoSpace_singleton, Bool.not_eq_true'] at hml
          rw [hc] at hml
          simp at hml
        · simpa using hmb
      · have hml' : lastNoSpace rest = true ∨ headNoSpace b = true := by
          rcases hmid with hml | hmb
          · left; rwa [lastNoSpace_cons_of_ne hr] at hml
          · right; exact hmb
        refine ⟨fun hc => ?_, ih ha.2 hml'⟩
        rw [headNoSpace_append_left hr]
        exact ha.1 hc

theorem lastNoSpace_append {a b : List Char} (hb : b ≠ []) :
    lastNoSpace (a ++ b) = lastNoSpace b := by
  unfold lastNoSpace
  rw [List.getLast?_append_of_ne_nil a hb]

theorem all_of_suffix {p : Char → Bool} {a l : List Char} (h : a <:+ l)
    (hl : l.all p = true) : a.all p = true := by
  rw [List.all_eq_true] at *
  intro c hc
  exact hl c (h.subset hc)

theorem spacesAreSP_of_suffix {a l : List Char} (h : a <:+ l)
    (hl : spacesAreSP l = true) : spacesAreSP a = true :=
  all_of_suffix h hl

theorem noAdjSpace_of_suffix {a l : List Char} (h : a <:+ l)
    (hl : noAdjSpace l = true) : noAdjSpace a = true := by
  obtain ⟨t, rfl⟩ := h
  exact noAdjSpace_append_right hl

theorem lastNoSpace_of_suffix {a l : List Char} (h : a <:+ l) (ha : a ≠ [])
    (hl : lastNoSpace l = true) : lastNoSpace a = true := by
  obtain ⟨t, rfl⟩ := h
  rwa [lastNoSpace_append ha] at hl

end Vansh

namespace Vansh

/-! ## Generic facts about the `re.sub` driver -/

/-- If a matcher fails at every scan position, the substitution is the
identity. -/
theorem subScanF_of_noMatch (m : Matcher) :
    ∀ fuel (prev : Option Char) (l : List Char),
      noMatchScanF m fuel prev l = true → subScanF m fuel prev l = l := by
  intro fuel
  induction fuel with
  | zero => intro prev l _h; rfl
  | succ n ih =>
      intro prev l h
      match l with
      | [] => rfl
      | c :: rest =>
          rw [noMatchScanF, Bool.and_eq_true] at h
          obtain ⟨h1, h2⟩ := h
          rw [Option.isNone_iff_eq_none] at h1
          rw [subScanF, h1]
          rw [ih (some c) rest h2]

theorem subScanF_all {p : Char → Bool} {m : Matcher} (hm : MatcherPres p m) :
    ∀ fuel (prev : Option Char) (l : List Char),
      l.all p = true → (subScanF m fuel prev l).all p = true := by
  intro fuel
  induction fuel with
  | zero => intro prev l h; exact h
  | succ n ih =>
      intro prev l h
      match l with
      | [] => exact h
      | c :: rest =>
          cases hm' : m prev (c :: rest) with
          | none =>
              rw [List.all_cons, Bool.and_eq_true] at h
              simp only [subScanF, hm']
              rw [List.all_cons, Bool.and_eq_true]
              exact ⟨h.1, ih (some c) rest h.2⟩
          | some pr =>
              obtain ⟨rep, rem⟩ := pr
              obtain ⟨hrep, hrem⟩ := hm prev (c :: rest) rep rem hm' h
              simp only [subScanF, hm']
              by_cases hlen : rem.length < (c :: rest).length
              · rw [dif_pos hlen, List.all_append, Bool.and_eq_true]
                exact ⟨hrep, ih _ rem hrem⟩
              · rw [dif_neg hlen, List.all_cons, Bool.and_eq_true]
                rw [List.all_cons, Bool.and_eq_true] at h
                exact ⟨h.1, ih (some c) rest h.2⟩

/-! ## Suffix facts for the matcher building blocks -/

theorem dropLitCS_suffix :
    ∀ (p l r : List Char), dropLitCS p l = some r → r <:+ l := by
  intro p
  induction p with
  | nil =>
      intro l r h
      rw [dropLitCS] at h
      cases h
      exact List.suffix_rfl
  | cons x xs ih =>
      intro l r h
      match l with
      | [] => exact absurd h (by rw [dropLitCS]; exact Option.noConfusion)
      | c :: cs =>
          rw [dropLitCS] at h
          by_cases hc : c = x
          · rw [if_pos hc] at h
            exact (ih cs r h).trans (List.suffix_cons c cs)
          · rw [if_neg hc] at h
            exact Option.noConfusion h

theorem dropLitCI_suffix :
    ∀ (p l r : List Char), dropLitCI p l = some r → r <:+ l := by
  intro p
  induction p with
  | nil =>
      intro l r h
      rw [dropLitCI] at h
      cases h
      exact List.suffix_rfl
  | cons x xs ih =>
      intro l r h
      match l with
      | [] => exact absurd h (by rw [dropLitCI]; exact Option.noConfusion)
      | c :: cs =>
          rw [dropLitCI] at h
          by_cases hc : lowerC c = lowerC x
          · rw [if_pos hc] at h
            exact (ih cs r h).trans (List.suffix_cons c cs)
          · rw [if_neg hc] at h
            exact Option.noConfusion h

theorem dropLit_suffix {ci : Bool} {p l r : List Char}
    (h : dropLit ci p l = some r) : r <:+ l := by
  unfold dropLit at h
  cases ci with
  | true => exact dropLitCI_suffix p l r h
  | false => exact dropLitCS_suffix p l r h

theorem dropClassStar_suffix (f : Char → Bool) :
    ∀ l : List Char, dropClassStar f l <:+ l := by
  intro l
  induction l with
  | nil => exact List.suffix_rfl
  | cons c rest ih =>
      rw [dropClassStar]
      by_cases hc : f c
      · rw [if_pos hc]
        exact ih.trans (List.suffix_cons c rest)
      · rw [if_neg hc]

theorem dropClassPlus_suffix {f : Char → Bool} {l r : List Char}
    (h : dropClassPlus f l = some r) : r <:+ l := by
  match l with
  | [] => exact absurd h (by rw [dropClassPlus]; exact Option.noConfusion)
  | c :: rest =>
      rw [dropClassPlus] at h
      by_cases hc : f c
      · rw [if_pos hc] at h
        cases h
        exact (dropClassStar_suffix f rest).trans (List.suffix_cons c rest)
      · rw [if_neg hc] at h
        exact Option.noConfusion h

theorem dropSpaces_suffix (l : List Char) : dropSpaces l <:+ l :=
  dropClassStar_suffix isSpaceC l

theorem dropWS1_suffix {l r : List Char} (h : dropWS1 l = some r) : r <:+ l :=
  dropClassPlus_suffix h

theorem matchSeq_suffix {ci : Bool} :
    ∀ (ws : List (List Char)) (l r : List Char),
      matchSeq ci ws l = some r → r <:+ l := by
  intro ws
  induction ws with
  | nil =>
      intro l r h
      rw [matchSeq] at h
      cases h
      exact List.suffix_rfl
  | cons w rest ih =>
      intro l r h
      match rest with
      | [] =>
          rw [matchSeq] at h
          exact dropLit_suffix h
      | w2 :: rest2 =>
          have h2 : (match dropLit ci w l with
                     | none => none
                     | some l1 =>
                        match dropWS1 l1 with
                        | none => none
                        | some l2 => matchSeq ci (w2 :: rest2) l2) = some r := h
          clear h
          cases hx : dropLit ci w l with
          | none =>
              simp only [hx] at h2
              exact Option.noConfusion h2
          | some l1 =>
              simp only [hx] at h2
              cases hy : dropWS1 l1 with
              | none =>
                  simp only [hy] at h2
                  exact Option.noConfusion h2
              | some l2 =>
                  simp only [hy] at h2
                  exact ((ih l2 r h2).trans (dropWS1_suffix hy)).trans
                    (dropLit_suffix hx)

theorem pickFirst_spec {α β : Type} {f : α → Option β} :
    ∀ {as : List α} {b : β}, pickFirst f as = some b → ∃ a ∈ as, f a = some b := by
  intro as
  induction as with
  | nil => intro b h; exact absurd h (by rw [pickFirst]; exact Option.noConfusion)
  | cons a rest ih =>
      intro b h
      rw [pickFirst] at h
      cases hx : f a with
      | some b2 =>
          simp only [hx] at h
          cases h
          exact ⟨a, List.mem_cons_self a rest, hx⟩
      | none =>
          simp only [hx] at h
          obtain ⟨a2, ha2, hfa2⟩ := ih h
          exact ⟨a2, List.mem_cons_of_mem a ha2, hfa2⟩

theorem dropToAfterF_suffix {close : List Char} :
    ∀ (fuel : Nat) (l r : List Char), dropToAfterF close fuel l = some r → r <:+ l := by
  intro fuel
  induction fuel with
  | zero =>
      intro l r h
      exact Option.noConfusion h
  | succ n ih =>
      intro l r h
      match l with
      | [] =>
          rw [dropToAfterF] at h
          exact dropLitCI_suffix close [] r h
      | c :: t =>
          rw [dropToAfterF] at h
          cases hx : dropLitCI close (c :: t) with
          | some r2 =>
              simp only [hx] at h
              cases h
              exact dropLitCI_suffix close (c :: t) r hx
          | none =>
              simp only [hx] at h
              exact (ih t r h).trans (List.suffix_cons c t)

theorem takeWordRun_sublist : ∀ l : List Char, List.Sublist (takeWordRun l) l := by
  intro l
  induction l with
  | nil => exact List.Sublist.refl []
  | cons c rest ih =>
      rw [takeWordRun]
      by_cases hc : isWordC c
      · rw [if_pos hc]
        exact List.Sublist.cons₂ c ih
      · rw [if_neg hc]
        exact List.nil_sublist _

theorem oneRep_suffix {w l r : List Char} (h : oneRep w l = some r) : r <:+ l := by
  unfold oneRep at h
  cases hx : dropWS1 l with
  | none =>
      simp only [hx] at h
      exact Option.noConfusion h
  | some l1 =>
      simp only [hx] at h
      cases hy : dropLitCI w l1 with
      | none =>
          simp only [hy] at h
          exact Option.noConfusion h
      | some l2 =>
          simp only [hy] at h
          by_cases hb : boundaryEnd l2 = true
          · rw [if_pos hb] at h
            cases h
            exact ((dropLitCI_suffix w l1 r hy).trans (dropWS1_suffix hx))
          · rw [if_neg hb] at h
            exact Option.noConfusion h

theorem manyRepsF_suffix (w : List Char) :
    ∀ (fuel : Nat) (l : List Char), manyRepsF w fuel l <:+ l := by
  intro fuel
  induction fuel with
  | zero => intro l; exact List.suffix_rfl
  | succ n ih =>
      intro l
      rw [manyRepsF]
      cases hx : oneRep w l with
      | none => exact List.suffix_rfl
      | some l2 => exact (ih l2).trans (oneRep_suffix hx)

end Vansh

namespace Vansh

/-! ## Per-matcher facts -/

theorem mAlt_spec {p : AltPat} {prev : Option Char} {l rep rem : List Char}
    (h : mAlt p prev l = some (rep, rem)) : rep = p.rep ∧ rem <:+ l := by
  unfold mAlt at h
  by_cases hb : boundaryOK prev = true
  · rw [if_pos hb] at h
    obtain ⟨a, _ha, hfa⟩ := pickFirst_spec h
    cases hx : matchSeq p.ci a l with
    | none =>
        simp only [hx] at hfa
        exact Option.noConfusion hfa
    | some r1 =>
        simp only [hx] at hfa
        have hr1 : r1 <:+ l := matchSeq_suffix a l r1 hx
        by_cases htb : (p.trailB && !(boundaryEnd r1)) = true
        · rw [if_pos htb] at hfa
          exact Option.noConfusion hfa
        · rw [if_neg htb] at hfa
          have hr2 : (if p.wstar then dropClassStar isWordC r1 else r1) <:+ r1 := by
            by_cases hw : p.wstar = true
            · rw [if_pos hw]
              exact dropClassStar_suffix isWordC r1
            · rw [if_neg hw]
          cases hp : p.tailPlus with
          | some f =>
              simp only [hp] at hfa
              cases hy : dropClassPlus f
                  (if p.wstar then dropClassStar isWordC r1 else r1) with
              | none =>
                  simp only [hy] at hfa
                  exact Option.noConfusion hfa
              | some r3 =>
                  simp only [hy] at hfa
                  cases hfa
                  exact ⟨rfl, ((dropClassPlus_suffix hy).trans hr2).trans hr1⟩
          | none =>
              simp only [hp] at hfa
              cases hs : p.tailStar with
              | some f =>
                  simp only [hs] at hfa
                  cases hfa
                  exact ⟨rfl, ((dropClassStar_suffix f _).trans hr2).trans hr1⟩
              | none =>
                  simp only [hs] at hfa
                  cases hfa
                  exact ⟨rfl, hr2.trans hr1⟩
  · rw [if_neg hb] at h
    exact Option.noConfusion h

theorem mAlt_pres {pc : Char → Bool} {p : AltPat} (hrep : p.rep.all pc = true) :
    MatcherPres pc (mAlt p) := by
  intro prev l rep rem h hl
  obtain ⟨hrepe, hrem⟩ := mAlt_spec h
  subst hrepe
  exact ⟨hrep, all_of_suffix hrem hl⟩

theorem mP2_spec {prev : Option Char} {l rep rem : List Char}
    (h : mP2 prev l = some (rep, rem)) : rep = [' '] ∧ rem <:+ l := by
  unfold mP2 at h
  by_cases hb : boundaryOK prev = true
  · rw [if_pos hb] at h
    cases hx : pickFirst (fun a => dropLitCI a l)
        [("here is").toList, ("here").toList ++ apoC :: ("s").toList,
         ("this is").toList, ("certainly").toList, ("sure").toList,
         ("absolutely").toList] with
    | none =>
        simp only [hx] at h
        exact Option.noConfusion h
    | some r1 =>
        simp only [hx] at h
        obtain ⟨a1, _, hfa1⟩ := pickFirst_spec hx
        have hr1 : r1 <:+ l := dropLitCI_suffix _ l r1 hfa1
        cases hy : dropLitCI ((" the ").toList) r1 with
        | none =>
            simp only [hy] at h
            exact Option.noConfusion h
        | some r2 =>
            simp only [hy] at h
            have hr2 : r2 <:+ r1 := dropLitCI_suffix _ r1 r2 hy
            cases hz : pickFirst (fun a => dropLitCI a r2)
                [("refined").toList, ("corrected").toList, ("polished").toList,
                 ("prose").toList, ("translation").toList, ("result").toList] with
            | none =>
                simp only [hz] at h
                exact Option.noConfusion h
            | some r3 =>
                simp only [hz] at h
                cases h
                obtain ⟨a2, _, hfa2⟩ := pickFirst_spec hz
                have hr3 : r3 <:+ r2 := dropLitCI_suffix _ r2 r3 hfa2
                refine ⟨rfl, ?_⟩
                exact (((dropClassStar_suffix _ _).trans
                  ((dropClassStar_suffix isWordC r3).trans hr3)).trans hr2).trans hr1
  · rw [if_neg hb] at h
    exact Option.noConfusion h

theorem mBacktickBlock_spec {prev : Option Char} {l rep rem : List Char}
    (h : mBacktickBlock prev l = some (rep, rem)) : rep = [] ∧ rem <:+ l := by
  unfold mBacktickBlock at h
  cases hx : dropLitCS [btickC, btickC, btickC] l with
  | none =>
      simp only [hx] at h
      exact Option.noConfusion h
  | some r1 =>
      simp only [hx] at h
      have hr1 : r1 <:+ l := dropLitCS_suffix _ l r1 hx
      have hr2 : dropClassStar (fun c => 'a' ≤ c && c ≤ 'z') r1 <:+ r1 :=
        dropClassStar_suffix _ r1
      cases hz : dropClassStar (fun c => 'a' ≤ c && c ≤ 'z') r1 with
      | nil =>
          rw [hz] at h
          cases h
          rw [hz] at hr2
          exact ⟨rfl, hr2.trans hr1⟩
      | cons c t =>
          simp only [hz] at h
          rw [hz] at hr2
          by_cases hc : c = Char.ofNat 10
          · rw [if_pos hc] at h
            cases h
            refine ⟨rfl, ?_⟩
            exact ((List.suffix_cons c rem).trans hr2).trans hr1
          · rw [if_neg hc] at h
            cases h
            exact ⟨rfl, hr2.trans hr1⟩

theorem mTripleTick_spec {prev : Option Char} {l rep rem : List Char}
    (h : mTripleTick prev l = some (rep, rem)) : rep = [] ∧ rem <:+ l := by
  unfold mTripleTick at h
  cases hx : dropLitCS [btickC, btickC, btickC] l with
  | none =>
      simp only [hx] at h
      exact Option.noConfusion h
  | some r1 =>
      simp only [hx] at h
      cases h
      exact ⟨rfl, dropLitCS_suffix _ l rem hx⟩

theorem mThink_spec {prev : Option Char} {l rep rem : List Char}
    (h : mThink prev l = some (rep, rem)) : rep = [] ∧ rem <:+ l := by
  unfold mThink at h
  cases hx : dropLitCI (("<think>").toList) l with
  | none =>
      simp only [hx] at h
      exact Option.noConfusion h
  | some r1 =>
      simp only [hx] at h
      cases hy : dropToAfterF (("</think>").toList) (r1.length + 1) r1 with
      | none =>
          simp only [hy] at h
          exact Option.noConfusion h
      | some r2 =>
          simp only [hy] at h
          cases h
          exact ⟨rfl, (dropToAfterF_suffix _ r1 rem hy).trans
            (dropLitCI_suffix _ l r1 hx)⟩

theorem mThought_spec {prev : Option Char} {l rep rem : List Char}
    (h : mThought prev l = some (rep, rem)) : rep = [] ∧ rem <:+ l := by
  unfold mThought at h
  cases hx : dropLitCI (("[thought]").toList) l with
  | none =>
      simp only [hx] at h
      exact Option.noConfusion h
  | some r1 =>
      simp only [hx] at h
      cases hy : dropToAfterF (("[/thought]").toList) (r1.length + 1) r1 with
      | none =>
          simp only [hy] at h
          exact Option.noConfusion h
      | some r2 =>
          simp only [hy] at h
          cases h
          exact ⟨rfl, (dropToAfterF_suffix _ r1 rem hy).trans
            (dropLitCI_suffix _ l r1 hx)⟩

theorem mWs_spec {prev : Option Char} {l rep rem : List Char}
    (h : mWs prev l = some (rep, rem)) :
    rep = [' '] ∧ rem <:+ l ∧
      ∃ c rest, l = c :: rest ∧ isSpaceC c = true ∧ rem = dropSpaces rest := by
  unfold mWs at h
  match l with
  | [] => exact Option.noConfusion h
  | c :: rest =>
      dsimp only at h
      by_cases hc : isSpaceC c = true
      · rw [if_pos hc] at h
        cases h
        exact ⟨rfl, (dropSpaces_suffix rest).trans (List.suffix_cons c rest),
          c, rest, rfl, hc, rfl⟩
      · rw [if_neg hc] at h
        exact Option.noConfusion h

theorem mDots_spec {prev : Option Char} {l rep rem : List Char}
    (h : mDots prev l = some (rep, rem)) : rep = ['.'] ∧ rem <:+ l := by
  unfold mDots at h
  match l with
  | [] => exact Option.noConfusion h
  | c :: rest =>
      dsimp only at h
      by_cases hc : c = '.'
      · rw [if_pos hc] at h
        cases hy : dropWS1 rest with
        | none =>
            simp only [hy] at h
            exact Option.noConfusion h
        | some r2 =>
            simp only [hy] at h
            match hr2 : r2 with
            | [] => exact Option.noConfusion h
            | d :: r3 =>
                dsimp only at h
                by_cases hd : d = '.'
                · rw [if_pos hd] at h
                  cases h
                  refine ⟨rfl, ?_⟩
                  exact ((List.suffix_cons d rem).trans (dropWS1_suffix hy)).trans
                    (List.suffix_cons c rest)
                · rw [if_neg hd] at h
                  exact Option.noConfusion h
      · rw [if_neg hc] at h
        exact Option.noConfusion h

theorem dropRunOf_suffix (c : Char) : ∀ l : List Char, dropRunOf c l <:+ l := by
  intro l
  induction l with
  | nil => exact List.suffix_rfl
  | cons d rest ih =>
      rw [dropRunOf]
      by_cases hd : d = c
      · rw [if_pos hd]
        exact ih.trans (List.suffix_cons d rest)
      · rw [if_neg hd]

theorem mPunct_spec {prev : Option Char} {l rep rem : List Char}
    (h : mPunct prev l = some (rep, rem)) :
    (∃ c, rep = [c] ∧ c ∈ l) ∧ rem <:+ l := by
  unfold mPunct at h
  match l with
  | [] => exact Option.noConfusion h
  | [c] => exact Option.noConfusion h
  | c :: d :: rest =>
      dsimp only at h
      by_cases hc : ((c = '.' || c = '!' || c = '?') && d = c) = true
      · rw [if_pos hc] at h
        cases h
        refine ⟨⟨c, rfl, List.mem_cons_self c _⟩, ?_⟩
        exact ((dropRunOf_suffix c rest).trans (List.suffix_cons d rest)).trans
          (List.suffix_cons c (d :: rest))
      · rw [if_neg hc] at h
        exact Option.noConfusion h

theorem mDedup_spec {prev : Option Char} {l rep rem : List Char}
    (h : mDedup prev l = some (rep, rem)) :
    rep.all (fun c => c ∈ l) = true ∧ rem <:+ l := by
  unfold mDedup at h
  by_cases hb : boundaryOK prev = true
  · rw [if_pos hb] at h
    cases hw : takeWordRun l with
    | nil =>
        rw [hw] at h
        exact Option.noConfusion h
    | cons wc wt =>
        rw [hw] at h
        cases hy : oneRep (wc :: wt) (l.drop (wc :: wt).length) with
        | none =>
            simp only [hy] at h
            exact Option.noConfusion h
        | some l2 =>
            simp only [hy] at h
            cases h
            constructor
            · rw [List.all_eq_true]
              intro c hc
              rw [decide_eq_true_eq]
              have hsub : List.Sublist (takeWordRun l) l := takeWordRun_sublist l
              rw [hw] at hsub
              exact hsub.subset hc
            · exact ((manyRepsF_suffix _ _ l2).trans (oneRep_suffix hy)).trans
                (List.drop_suffix _ l)
  · rw [if_neg hb] at h
    exact Option.noConfusion h

end Vansh

namespace Vansh

/-! ## ASCII preservation through the pipeline -/

theorem pres_mP1 : MatcherPres isAsciiC mP1 := mAlt_pres (by decide)
theorem pres_mP3 : MatcherPres isAsciiC mP3 := mAlt_pres (by decide)
theorem pres_mP4 : MatcherPres isAsciiC mP4 := mAlt_pres (by decide)
theorem pres_mP5 : MatcherPres isAsciiC mP5 := mAlt_pres (by decide)
theorem pres_mSubA : MatcherPres isAsciiC mSubA := mAlt_pres (by decide)
theorem pres_mFillers1 : MatcherPres isAsciiC mFillers1 := mAlt_pres (by decide)
theorem pres_mFillers2 : MatcherPres isAsciiC mFillers2 := mAlt_pres (by decide)

theorem pres_mGrammar {alt : List (List Char)} {rep : List Char}
    (hrep : rep.all isAsciiC = true) : MatcherPres isAsciiC (mGrammar alt rep) :=
  mAlt_pres hrep

theorem pres_mP2 : MatcherPres isAsciiC mP2 := by
  intro prev l rep rem h hl
  obtain ⟨hr, hs⟩ := mP2_spec h
  subst hr
  exact ⟨by decide, all_of_suffix hs hl⟩

theorem pres_mBacktickBlock : MatcherPres isAsciiC mBacktickBlock := by
  intro prev l rep rem h hl
  obtain ⟨hr, hs⟩ := mBacktickBlock_spec h
  subst hr
  exact ⟨rfl, all_of_suffix hs hl⟩

theorem pres_mTripleTick : MatcherPres isAsciiC mTripleTick := by
  intro prev l rep rem h hl
  obtain ⟨hr, hs⟩ := mTripleTick_spec h
  subst hr
  exact ⟨rfl, all_of_suffix hs hl⟩

theorem pres_mThink : MatcherPres isAsciiC mThink := by
  intro prev l rep rem h hl
  obtain ⟨hr, hs⟩ := mThink_spec h
  subst hr
  exact ⟨rfl, all_of_suffix hs hl⟩

theorem pres_mThought : MatcherPres isAsciiC mThought := by
  intro prev l rep rem h hl
  obtain ⟨hr, hs⟩ := mThought_spec h
  subst hr
  exact ⟨rfl, all_of_suffix hs hl⟩

theorem pres_mWs : MatcherPres isAsciiC mWs := by
  intro prev l rep rem h hl
  obtain ⟨hr, hs, _⟩ := mWs_spec h
  subst hr
  exact ⟨by decide, all_of_suffix hs hl⟩

theorem pres_mDots : MatcherPres isAsciiC mDots := by
  intro prev l rep rem h hl
  obtain ⟨hr, hs⟩ := mDots_spec h
  subst hr
  exact ⟨by decide, all_of_suffix hs hl⟩

theorem pres_mPunct : MatcherPres isAsciiC mPunct := by
  intro prev l rep rem h hl
  obtain ⟨⟨c, hr, hc⟩, hs⟩ := mPunct_spec h
  subst hr
  refine ⟨?_, all_of_suffix hs hl⟩
  rw [List.all_eq_true] at hl ⊢
  intro x hx
  rw [List.mem_singleton] at hx
  subst hx
  exact hl _ hc

theorem pres_mDedup : MatcherPres isAsciiC mDedup := by
  intro prev l rep rem h hl
  obtain ⟨hr, hs⟩ := mDedup_spec h
  refine ⟨?_, all_of_suffix hs hl⟩
  rw [List.all_eq_true] at hr hl ⊢
  intro x hx
  have := hr x hx
  rw [decide_eq_true_eq] at this
  exact hl x this

theorem subScan_all {pc : Char → Bool} {m : Matcher} (hm : MatcherPres pc m)
    {l : List Char} (hl : l.all pc = true) : (subScan m l).all pc = true :=
  subScanF_all hm l.length none l hl

theorem pyLStrip_suffix (l : List Char) : pyLStrip l <:+ l := by
  induction l with
  | nil => exact List.suffix_rfl
  | cons c rest ih =>
      rw [pyLStrip]
      by_cases hc : isSpaceC c
      · rw [if_pos hc]
        exact ih.trans (List.suffix_cons c rest)
      · rw [if_neg hc]

theorem pyRStrip_all {pc : Char → Bool} :
    ∀ {l : List Char}, l.all pc = true → (pyRStrip l).all pc = true := by
  intro l
  induction l with
  | nil => intro h; exact h
  | cons c rest ih =>
      intro h
      rw [List.all_cons, Bool.and_eq_true] at h
      rw [pyRStrip]
      cases hx : pyRStrip rest with
      | nil =>
          by_cases hc : isSpaceC c
          · rw [if_pos hc]; rfl
          · rw [if_neg hc]
            rw [List.all_cons, Bool.and_eq_true]
            exact ⟨h.1, rfl⟩
      | cons d t =>
          rw [List.all_cons, Bool.and_eq_true]
          refine ⟨h.1, ?_⟩
          rw [← hx]
          exact ih h.2

theorem pyStrip_all {pc : Char → Bool} {l : List Char} (h : l.all pc = true) :
    (pyStrip l).all pc = true := by
  unfold pyStrip
  exact pyRStrip_all (all_of_suffix (pyLStrip_suffix l) h)

theorem cleanLoopF_ascii :
    ∀ (fuel : Nat) (l : List Char), l.all isAsciiC = true →
      (cleanLoopF fuel l).all isAsciiC = true := by
  intro fuel
  induction fuel with
  | zero => intro l h; exact h
  | succ n ih =>
      intro l h
      rw [cleanLoopF]
      have h2 : (subScan mDedup (pyStrip (subScan mSubA l))).all isAsciiC = true :=
        subScan_all pres_mDedup (pyStrip_all (subScan_all pres_mSubA h))
      by_cases hl : (subScan mDedup (pyStrip (subScan mSubA l))).length = l.length
      · rw [if_pos hl]
        exact h2
      · rw [if_neg hl]
        exact ih _ h2

theorem sentSplitGo_zero (acc l : List Char) :
    sentSplitGo 0 acc l = [acc.reverse ++ l] := rfl

theorem sentSplitGo_nil (n : Nat) (acc : List Char) :
    sentSplitGo (n + 1) acc [] = [acc.reverse] := rfl

theorem sentSplitGo_cons (n : Nat) (acc : List Char) (c : Char) (rest : List Char) :
    sentSplitGo (n + 1) acc (c :: rest) =
      if (accPunct acc && isSpaceC c) = true then
        acc.reverse :: sentSplitGo n [] (dropSpaces rest)
      else sentSplitGo n (c :: acc) rest := rfl

theorem sentSplitGo_all {pc : Char → Bool} :
    ∀ (fuel : Nat) (acc l : List Char), acc.all pc = true → l.all pc = true →
      ∀ f ∈ sentSplitGo fuel acc l, f.all pc = true := by
  intro fuel
  induction fuel with
  | zero =>
      intro acc l ha hl f hf
      rw [sentSplitGo_zero] at hf
      rw [List.mem_singleton] at hf
      subst hf
      rw [List.all_append, Bool.and_eq_true]
      exact ⟨by rwa [List.all_reverse], hl⟩
  | succ n ih =>
      intro acc l ha hl f hf
      match l with
      | [] =>
          rw [sentSplitGo_nil] at hf
          rw [List.mem_singleton] at hf
          subst hf
          rwa [List.all_reverse]
      | c :: rest =>
          rw [sentSplitGo_cons] at hf
          rw [List.all_cons, Bool.and_eq_true] at hl
          by_cases hcond : (accPunct acc && isSpaceC c) = true
          · rw [if_pos hcond] at hf
            rw [List.mem_cons] at hf
            rcases hf with hf | hf
            · subst hf
              rwa [List.all_reverse]
            · exact ih [] (dropSpaces rest) rfl
                (all_of_suffix (dropSpaces_suffix rest) hl.2) f hf
          · rw [if_neg hcond] at hf
            refine ih (c :: acc) rest ?_ hl.2 f hf
            rw [List.all_cons, Bool.and_eq_true]
            exact ⟨hl.1, ha⟩

theorem joinSpace_all {pc : Char → Bool} (hsp : pc ' ' = true) :
    ∀ fs : List (List Char), (∀ f ∈ fs, f.all pc = true) →
      (joinSpace fs).all pc = true := by
  intro fs
  induction fs with
  | nil => intro _; rfl
  | cons p rest ih =>
      intro h
      match rest with
      | [] =>
          exact h p (List.mem_singleton.mpr rfl)
      | q :: rest2 =>
          have he : joinSpace (p :: q :: rest2) = p ++ ' ' :: joinSpace (q :: rest2) := rfl
          rw [he, List.all_append, Bool.and_eq_true]
          refine ⟨h p (List.mem_cons_self p _), ?_⟩
          rw [List.all_cons, Bool.and_eq_true]
          refine ⟨hsp, ih ?_⟩
          intro f hf
          exact h f (List.mem_cons_of_mem p hf)

theorem capHead_ascii {f : List Char} (h : f.all isAsciiC = true) :
    (capHead f).all isAsciiC = true := by
  cases f with
  | nil => rfl
  | cons c rest =>
      rw [List.all_cons, Bool.and_eq_true] at h
      rw [capHead, List.all_cons, Bool.and_eq_true]
      exact ⟨isAsciiC_upperC h.1, h.2⟩

theorem capJoin_ascii {l : List Char} (h : l.all isAsciiC = true) :
    (capJoin l).all isAsciiC = true := by
  unfold capJoin
  refine joinSpace_all (by decide) _ ?_
  intro f hf
  rw [List.mem_map] at hf
  obtain ⟨g, hg, rfl⟩ := hf
  exact capHead_ascii (sentSplitGo_all (l.length + 1) [] l rfl h g hg)

theorem cleanStage5_ascii {l : List Char} (h : l.all isAsciiC = true) :
    (cleanStage5 l).all isAsciiC = true :=
  subScan_all pres_mPunct (subScan_all pres_mDots
    (pyStrip_all (subScan_all pres_mWs h)))

theorem clean_ai_output_ascii {t : List Char} (h : t.all isAsciiC = true) :
    (clean_ai_output t).all isAsciiC = true := by
  unfold clean_ai_output
  by_cases ht : t = []
  · rw [if_pos ht]
    exact h
  · rw [if_neg ht]
    have h1 : (cleanStage1 t).all isAsciiC = true :=
      pyStrip_all (subScan_all pres_mTripleTick (subScan_all pres_mBacktickBlock h))
    have h2 : (cleanStage2 (cleanStage1 t)).all isAsciiC = true :=
      subScan_all pres_mThought (subScan_all pres_mThink h1)
    have h3 : (cleanStage3 (cleanStage2 (cleanStage1 t))).all isAsciiC = true :=
      subScan_all pres_mP5 (subScan_all pres_mP4 (subScan_all pres_mP3
        (subScan_all pres_mP2 (subScan_all pres_mP1 h2))))
    have h4 : (cleanStage4 (cleanStage3 (cleanStage2 (cleanStage1 t)))).all
        isAsciiC = true := cleanLoopF_ascii _ _ h3
    have h5 := cleanStage5_ascii h4
    unfold cleanStage6
    by_cases hc5 : cleanStage5 (cleanStage4 (cleanStage3 (cleanStage2
        (cleanStage1 t)))) = []
    · rw [if_pos hc5]
      exact pyStrip_all (by rw [hc5]; rfl)
    · rw [if_neg hc5]
      exact pyStrip_all (capJoin_ascii h5)
end Vansh

namespace Vansh

/-! ## Whitespace normalization lemmas -/

theorem headNoSpace_dropClassStar (l : List Char) :
    headNoSpace (dropClassStar isSpaceC l) = true := by
  induction l with
  | nil => rfl
  | cons c rest ih =>
      rw [dropClassStar]
      by_cases hc : isSpaceC c
      · rw [if_pos hc]
        exact ih
      · rw [if_neg hc]
        rw [headNoSpace_cons]
        simpa using hc

theorem headNoSpace_dropSpaces (l : List Char) :
    headNoSpace (dropSpaces l) = true :=
  headNoSpace_dropClassStar l

theorem headNoSpace_of_all {rep : List Char}
    (h : rep.all (fun c => !(isSpaceC c)) = true) : headNoSpace rep = true := by
  cases rep with
  | nil => rfl
  | cons c rest =>
      rw [List.all_cons, Bool.and_eq_true] at h
      rw [headNoSpace_cons]
      exact h.1

theorem lastNoSpace_of_all {rep : List Char}
    (h : rep.all (fun c => !(isSpaceC c)) = true) : lastNoSpace rep = true := by
  unfold lastNoSpace
  cases hx : rep.getLast? with
  | none => rfl
  | some c =>
      rw [List.all_eq_true] at h
      have hc : c ∈ rep := by
        have := List.getLast?_eq_getLast_of_ne_nil (l := rep)
        cases rep with
        | nil => exact absurd hx (by simp)
        | cons d t =>
            have hgl := this (by simp)
            rw [hgl] at hx
            cases hx
            exact List.getLast_mem _
      exact h c hc

theorem spacesAreSP_cons {c : Char} {l : List Char} :
    spacesAreSP (c :: l) = true ↔
      ((isSpaceC c = true → c = ' ') ∧ spacesAreSP l = true) := by
  unfold spacesAreSP
  rw [List.all_cons, Bool.and_eq_true]
  constructor
  · rintro ⟨h1, h2⟩
    refine ⟨fun hc => ?_, h2⟩
    rw [hc] at h1
    simpa using h1
  · rintro ⟨h1, h2⟩
    refine ⟨?_, h2⟩
    by_cases hc : isSpaceC c = true
    · have := h1 hc
      subst this
      simp
    · rw [Bool.not_eq_true] at hc
      rw [hc]
      simp

theorem subScanF_mWs_norm :
    ∀ (fuel : Nat) (prev : Option Char) (l : List Char), l.length ≤ fuel →
      spacesAreSP (subScanF mWs fuel prev l) = true
      ∧ noAdjSpace (subScanF mWs fuel prev l) = true
      ∧ (headNoSpace l = true → headNoSpace (subScanF mWs fuel prev l) = true) := by
  intro fuel
  induction fuel with
  | zero =>
      intro prev l hlen
      have : l = [] := List.length_eq_zero.mp (Nat.le_zero.mp hlen)
      subst this
      exact ⟨rfl, rfl, fun _ => rfl⟩
  | succ n ih =>
      intro prev l hlen
      match l with
      | [] => exact ⟨rfl, rfl, fun _ => rfl⟩
      | c :: rest =>
          have hmeq : mWs prev (c :: rest) =
              (if isSpaceC c = true then some ([' '], dropSpaces rest)
               else none) := rfl
          by_cases hc : isSpaceC c = true
          · rw [if_pos hc] at hmeq
            have hlt : (dropSpaces rest).length < (c :: rest).length :=
              Nat.lt_of_le_of_lt (List.IsSuffix.length_le (dropSpaces_suffix rest))
                (by simp)
            simp only [subScanF, hmeq, dif_pos hlt]
            have hrem : (dropSpaces rest).length ≤ n := by
              have := List.IsSuffix.length_le (dropSpaces_suffix rest)
              simp only [List.length_cons] at hlen
              omega
            obtain ⟨ih1, ih2, ih3⟩ := ih
              (some ((c :: rest).getD
                ((c :: rest).length - (dropSpaces rest).length - 1) c))
              (dropSpaces rest) hrem
            have hh := ih3 (headNoSpace_dropSpaces rest)
            refine ⟨?_, ?_, ?_⟩
            · exact spacesAreSP_cons.mpr ⟨fun _ => rfl, ih1⟩
            · rw [List.singleton_append, noAdjSpace_cons]
              exact ⟨fun _ => hh, ih2⟩
            · intro hhead
              rw [headNoSpace_cons] at hhead
              rw [hc] at hhead
              simp at hhead
          · rw [if_neg hc] at hmeq
            simp only [subScanF, hmeq]
            have hrem : rest.length ≤ n := by
              simp only [List.length_cons] at hlen
              omega
            obtain ⟨ih1, ih2, ih3⟩ := ih (some c) rest hrem
            refine ⟨?_, ?_, ?_⟩
            · exact spacesAreSP_cons.mpr ⟨fun hcc => absurd hcc hc, ih1⟩
            · rw [noAdjSpace_cons]
              refine ⟨fun hcc => absurd hcc hc, ih2⟩
            · intro _
              rw [headNoSpace_cons]
              simpa using hc

theorem headNoSpace_pyLStrip (l : List Char) : headNoSpace (pyLStrip l) = true := by
  induction l with
  | nil => rfl
  | cons c rest ih =>
      rw [pyLStrip]
      by_cases hc : isSpaceC c
      · rw [if_pos hc]
        exact ih
      · rw [if_neg hc]
        rw [headNoSpace_cons]
        simpa using hc

theorem lastNoSpace_pyRStrip (l : List Char) : lastNoSpace (pyRStrip l) = true := by
  induction l with
  | nil => rfl
  | cons c rest ih =>
      rw [pyRStrip]
      cases hx : pyRStrip rest with
      | nil =>
          by_cases hc : isSpaceC c
          · rw [if_pos hc]; rfl
          · rw [if_neg hc]
            rw [lastNoSpace_singleton]
            simpa using hc
      | cons d t =>
          rw [lastNoSpace_cons_of_ne (by simp)]
          rw [← hx]
          exact ih

theorem pyRStrip_eventually (l : List Char) : ∃ t, pyRStrip l ++ t = l := by
  induction l with
  | nil => exact ⟨[], rfl⟩
  | cons c rest ih =>
      obtain ⟨t, ht⟩ := ih
      rw [pyRStrip]
      cases hx : pyRStrip rest with
      | nil =>
          by_cases hc : isSpaceC c
          · rw [if_pos hc]
            exact ⟨c :: rest, rfl⟩
          · rw [if_neg hc]
            rw [hx] at ht
            exact ⟨rest, by simp⟩
      | cons d tl =>
          rw [hx] at ht
          refine ⟨t, ?_⟩
          rw [List.cons_append, ht]

theorem noAdjSpace_append_left {a t : List Char}
    (h : noAdjSpace (a ++ t) = true) : noAdjSpace a = true := by
  induction a with
  | nil => rfl
  | cons c rest ih =>
      rw [List.cons_append, noAdjSpace_cons] at h
      rw [noAdjSpace_cons]
      refine ⟨fun hc => ?_, ih h.2⟩
      have := h.1 hc
      cases hr : rest with
      | nil => rfl
      | cons d tl =>
          rw [hr] at this
          rw [List.cons_append] at this
          rw [headNoSpace_cons] at this ⊢
          exact this

theorem spacesAreSP_pyStrip {l : List Char} (h : spacesAreSP l = true) :
    spacesAreSP (pyStrip l) = true :=
  pyRStrip_all (all_of_suffix (pyLStrip_suffix l) h)

theorem noAdjSpace_pyStrip {l : List Char} (h : noAdjSpace l = true) :
    noAdjSpace (pyStrip l) = true := by
  unfold pyStrip
  have h1 : noAdjSpace (pyLStrip l) = true := noAdjSpace_of_suffix (pyLStrip_suffix l) h
  obtain ⟨t, ht⟩ := pyRStrip_eventually (pyLStrip l)
  rw [← ht] at h1
  exact noAdjSpace_append_left h1

theorem isNormWS_pyStrip_of {l : List Char} (h1 : spacesAreSP l = true)
    (h2 : noAdjSpace l = true) : isNormWS (pyStrip l) = true := by
  unfold isNormWS
  rw [Bool.and_eq_true, Bool.and_eq_true, Bool.and_eq_true]
  refine ⟨⟨⟨spacesAreSP_pyStrip h1, noAdjSpace_pyStrip h2⟩, ?_⟩, ?_⟩
  · unfold pyStrip
    exact headNoSpace_pyRStrip (headNoSpace_pyLStrip l)
  · exact lastNoSpace_pyRStrip _

/-- After `re.sub(r"\s+", " ").strip()` the text is whitespace-normalized. -/
theorem wsSub_strip_norm (l : List Char) :
    isNormWS (pyStrip (subScan mWs l)) = true := by
  obtain ⟨h1, h2, _⟩ := subScanF_mWs_norm l.length none l (Nat.le_refl _)
  exact isNormWS_pyStrip_of h1 h2

end Vansh

namespace Vansh

/-! ## Normalization preservation through dots/punctuation substitution -/

theorem subScanF_nil (m : Matcher) (fuel : Nat) (prev : Option Char) :
    subScanF m fuel prev [] = [] := by
  cases fuel with
  | zero => rfl
  | succ n => rfl

theorem spacesAreSP_append {a b : List Char} :
    spacesAreSP (a ++ b) = (spacesAreSP a && spacesAreSP b) := by
  unfold spacesAreSP
  exact List.all_append

theorem spacesAreSP_of_all_nonspace {rep : List Char}
    (h : rep.all (fun c => !(isSpaceC c)) = true) : spacesAreSP rep = true := by
  unfold spacesAreSP
  rw [List.all_eq_true] at h ⊢
  intro x hx
  have := h x hx
  simp [this]

theorem noAdjSpace_of_all_nonspace {rep : List Char}
    (h : rep.all (fun c => !(isSpaceC c)) = true) : noAdjSpace rep = true := by
  induction rep with
  | nil => rfl
  | cons x xs ih =>
      rw [List.all_cons, Bool.and_eq_true] at h
      rw [noAdjSpace_cons]
      refine ⟨fun hc => ?_, ih h.2⟩
      have hx : isSpaceC x = false := by
        have := h.1
        rwa [Bool.not_eq_true'] at this
      rw [hc] at hx
      exact Bool.noConfusion hx

theorem subScanF_norm {m : Matcher} (hm : NormSafe m) :
    ∀ (fuel : Nat) (prev : Option Char) (l : List Char),
      spacesAreSP l = true → noAdjSpace l = true → lastNoSpace l = true →
      spacesAreSP (subScanF m fuel prev l) = true
      ∧ noAdjSpace (subScanF m fuel prev l) = true
      ∧ lastNoSpace (subScanF m fuel prev l) = true
      ∧ (headNoSpace l = true → headNoSpace (subScanF m fuel prev l) = true)
      ∧ (subScanF m fuel prev l = [] → l = []) := by
  intro fuel
  induction fuel with
  | zero =>
      intro prev l h1 h2 h3
      exact ⟨h1, h2, h3, fun h => h, fun h => h⟩
  | succ n ih =>
      intro prev l h1 h2 h3
      match l with
      | [] => exact ⟨rfl, rfl, rfl, fun _ => rfl, fun _ => rfl⟩
      | c :: rest =>
          have hcrest : spacesAreSP rest = true ∧ noAdjSpace rest = true ∧
              lastNoSpace rest = true ∨ rest = [] := by
            by_cases hr : rest = []
            · exact Or.inr hr
            · refine Or.inl ⟨?_, ?_, ?_⟩
              · exact spacesAreSP_of_suffix (List.suffix_cons c rest) h1
              · exact (noAdjSpace_cons.mp h2).2
              · rwa [lastNoSpace_cons_of_ne hr] at h3
          have hcnospace : isSpaceC c = true → headNoSpace rest = true :=
            (noAdjSpace_cons.mp h2).1
          cases hm' : m prev (c :: rest) with
          | none =>
              simp only [subScanF, hm']
              rcases hcrest with ⟨hr1, hr2, hr3⟩ | hre
              · obtain ⟨ih1, ih2, ih3, ih4, ih5⟩ := ih (some c) rest hr1 hr2 hr3
                refine ⟨?_, ?_, ?_, ?_, ?_⟩
                · exact spacesAreSP_cons.mpr
                    ⟨fun hc => (spacesAreSP_cons.mp h1).1 hc, ih1⟩
                · rw [noAdjSpace_cons]
                  exact ⟨fun hc => ih4 (hcnospace hc), ih2⟩
                · by_cases hz : subScanF m n (some c) rest = []
                  · have := ih5 hz
                    subst this
                    rw [hz]
                    exact h3
                  · rw [lastNoSpace_cons_of_ne hz]
                    exact ih3
                · intro hh
                  rw [headNoSpace_cons] at hh ⊢
                  exact hh
                · intro hz
                  exact List.noConfusion hz
              · subst hre
                rw [subScanF_nil]
                refine ⟨h1, h2, h3, fun h => h, fun hz => List.noConfusion hz⟩
          | some pr =>
              obtain ⟨rep, rem⟩ := pr
              obtain ⟨hrep1, hrep2, hrem⟩ :=
                hm.rep_spec prev (c :: rest) rep rem hm'
              have hremfacts : spacesAreSP rem = true ∧ noAdjSpace rem = true ∧
                  lastNoSpace rem = true := by
                refine ⟨spacesAreSP_of_suffix hrem h1,
                  noAdjSpace_of_suffix hrem h2, ?_⟩
                by_cases hz : rem = []
                · subst hz; rfl
                · exact lastNoSpace_of_suffix hrem hz h3
              simp only [subScanF, hm']
              by_cases hlen : rem.length < (c :: rest).length
              · rw [dif_pos hlen]
                obtain ⟨ih1, ih2, ih3, ih4, ih5⟩ := ih
                  (some ((c :: rest).getD ((c :: rest).length - rem.length - 1) c))
                  rem hremfacts.1 hremfacts.2.1 hremfacts.2.2
                have hrephead : headNoSpace rep = true := headNoSpace_of_all hrep2
                have hreplast : lastNoSpace rep = true := lastNoSpace_of_all hrep2
                have hrepsp : spacesAreSP rep = true :=
                  spacesAreSP_of_all_nonspace hrep2
                have hrepadj : noAdjSpace rep = true :=
                  noAdjSpace_of_all_nonspace hrep2
                refine ⟨?_, ?_, ?_, ?_, ?_⟩
                · rw [spacesAreSP_append, Bool.and_eq_true]
                  exact ⟨hrepsp, ih1⟩
                · exact noAdjSpace_append hrepadj ih2 (Or.inl hreplast)
                · by_cases hz : subScanF m n
                      (some ((c :: rest).getD
                        ((c :: rest).length - rem.length - 1) c)) rem = []
                  · rw [hz, List.append_nil]
                    exact hreplast
                  · rw [lastNoSpace_append hz]
                    exact ih3
                · intro _
                  rw [headNoSpace_append_left hrep1]
                  exact hrephead
                · intro hz
                  rcases List.append_eq_nil.mp hz with ⟨hz1, _⟩
                  exact absurd hz1 hrep1
              · rw [dif_neg hlen]
                rcases hcrest with ⟨hr1, hr2, hr3⟩ | hre
                · obtain ⟨ih1, ih2, ih3, ih4, ih5⟩ := ih (some c) rest hr1 hr2 hr3
                  refine ⟨?_, ?_, ?_, ?_, ?_⟩
                  · exact spacesAreSP_cons.mpr
                      ⟨fun hc => (spacesAreSP_cons.mp h1).1 hc, ih1⟩
                  · rw [noAdjSpace_cons]
                    exact ⟨fun hc => ih4 (hcnospace hc), ih2⟩
                  · by_cases hz : subScanF m n (some c) rest = []
                    · have := ih5 hz
                      subst this
                      rw [hz]
                      exact h3
                    · rw [lastNoSpace_cons_of_ne hz]
                      exact ih3
                  · intro hh
                    rw [headNoSpace_cons] at hh ⊢
                    exact hh
                  · intro hz
                    exact List.noConfusion hz
                · subst hre
                  rw [subScanF_nil]
                  exact ⟨h1, h2, h3, fun h => h, fun hz => List.noConfusion hz⟩

end Vansh

namespace Vansh

theorem normSafe_mDots : NormSafe mDots := by
  constructor
  · intro prev l rep rem h
    obtain ⟨hr, hs⟩ := mDots_spec h
    subst hr
    exact ⟨by simp, by decide, hs⟩
  · intro prev c rest hc
    have hne : ¬(c = '.') := by
      intro hcd
      rw [hcd] at hc
      exact absurd hc (by decide)
    unfold mDots
    dsimp only
    rw [if_neg hne]

theorem normSafe_mPunct : NormSafe mPunct := by
  constructor
  · intro prev l rep rem h
    unfold mPunct at h
    match l with
    | [] => exact Option.noConfusion h
    | [c] => exact Option.noConfusion h
    | c :: d :: rest =>
        dsimp only at h
        by_cases hc : ((c = '.' || c = '!' || c = '?') && d = c) = true
        · rw [if_pos hc] at h
          cases h
          rw [Bool.and_eq_true] at hc
          have hcp := hc.1
          rw [Bool.or_eq_true, Bool.or_eq_true] at hcp
          have hnospace : isSpaceC c = false := by
            rcases hcp with (hq | hq) | hq <;>
              (rw [decide_eq_true_eq] at hq; rw [hq]; decide)
          refine ⟨by simp, ?_, ?_⟩
          · rw [List.all_cons]
            simp [hnospace]
          · exact ((dropRunOf_suffix c rest).trans
              (List.suffix_cons d rest)).trans (List.suffix_cons c (d :: rest))
        · rw [if_neg hc] at h
          exact Option.noConfusion h
  · intro prev c rest hc
    unfold mPunct
    match rest with
    | [] => rfl
    | d :: rest2 =>
        dsimp only
        rw [if_neg]
        intro hcc
        rw [Bool.and_eq_true, Bool.or_eq_true, Bool.or_eq_true] at hcc
        rcases hcc.1 with (hq | hq) | hq <;>
          (rw [decide_eq_true_eq] at hq; rw [hq] at hc; exact absurd hc (by decide))

theorem isNormWS_iff {l : List Char} :
    isNormWS l = true ↔
      spacesAreSP l = true ∧ noAdjSpace l = true ∧ headNoSpace l = true ∧
        lastNoSpace l = true := by
  unfold isNormWS
  rw [Bool.and_eq_true, Bool.and_eq_true, Bool.and_eq_true]
  constructor
  · rintro ⟨⟨⟨a, b⟩, c⟩, d⟩
    exact ⟨a, b, c, d⟩
  · rintro ⟨a, b, c, d⟩
    exact ⟨⟨⟨a, b⟩, c⟩, d⟩

/-- The whitespace/punctuation normalization stage always yields a
whitespace-normalized string. -/
theorem cleanStage5_norm (l : List Char) : isNormWS (cleanStage5 l) = true := by
  obtain ⟨a1, a2, a3, a4⟩ := isNormWS_iff.mp (wsSub_strip_norm l)
  obtain ⟨b1, b2, b3, b4, _⟩ := subScanF_norm normSafe_mDots
    (pyStrip (subScan mWs l)).length none (pyStrip (subScan mWs l)) a1 a2 a4
  obtain ⟨c1, c2, c3, c4, _⟩ := subScanF_norm normSafe_mPunct
    (subScan mDots (pyStrip (subScan mWs l))).length none
    (subScan mDots (pyStrip (subScan mWs l))) b1 b2 b3
  exact isNormWS_iff.mpr ⟨c1, c2, c4 (b4 a3), c3⟩

end Vansh

namespace Vansh

/-! ## The sentence-split/join identity on normalized text -/

theorem dropSpaces_of_headNoSpace {t : List Char} (h : headNoSpace t = true) :
    dropSpaces t = t := by
  cases t with
  | nil => rfl
  | cons c rest =>
      rw [headNoSpace_cons, Bool.not_eq_true'] at h
      unfold dropSpaces dropClassStar
      rw [h]
      simp

theorem joinSpace_cons_ne {x : List Char} {ys : List (List Char)} (hy : ys ≠ []) :
    joinSpace (x :: ys) = x ++ ' ' :: joinSpace ys := by
  cases ys with
  | nil => exact absurd rfl hy
  | cons q rest => rfl

theorem joinSpace_one (x : List Char) : joinSpace [x] = x := rfl

theorem sentSplitGo_spec :
    ∀ (fuel : Nat) (acc l : List Char), l.length < fuel →
      spacesAreSP (acc.reverse ++ l) = true →
      noAdjSpace (acc.reverse ++ l) = true →
      lastNoSpace (acc.reverse ++ l) = true →
      headNoSpace acc.reverse = true →
      (acc = [] → l ≠ [] ∧ headNoSpace l = true) →
      sentSplitGo fuel acc l ≠ []
      ∧ joinSpace (sentSplitGo fuel acc l) = acc.reverse ++ l
      ∧ ∀ f ∈ sentSplitGo fuel acc l,
          f ≠ [] ∧ headNoSpace f = true ∧ lastNoSpace f = true := by
  intro fuel
  induction fuel with
  | zero =>
      intro acc l hlen
      exact absurd hlen (Nat.not_lt_zero _)
  | succ n ih =>
      intro acc l hlen hsp hadj hlast hhead hacc
      match l with
      | [] =>
          rw [sentSplitGo_nil]
          have haccne : acc ≠ [] := by
            intro hz
            exact (hacc hz).1 rfl
          have hrevne : acc.reverse ≠ [] := by
            rw [Ne, List.reverse_eq_nil_iff]
            exact haccne
          rw [List.append_nil] at hsp hadj hlast
          refine ⟨by simp, by rw [joinSpace_one, List.append_nil], ?_⟩
          intro f hf
          rw [List.mem_singleton] at hf
          subst hf
          exact ⟨hrevne, hhead, hlast⟩
      | c :: rest =>
          rw [sentSplitGo_cons]
          by_cases hcond : (accPunct acc && isSpaceC c) = true
          · rw [if_pos hcond]
            rw [Bool.and_eq_true] at hcond
            obtain ⟨hpunct, hcspace⟩ := hcond
            obtain ⟨p, acc', rfl⟩ : ∃ p acc', acc = p :: acc' := by
              cases acc with
              | nil => exact absurd hpunct (by rw [accPunct]; simp)
              | cons p acc' => exact ⟨p, acc', rfl⟩
            have haccne : (p :: acc') ≠ [] := by simp
            have hrevne : (p :: acc').reverse ≠ [] := by simp
            have hcSP : c = ' ' := by
              have h1 : spacesAreSP (c :: rest) = true :=
                spacesAreSP_of_suffix ⟨(p :: acc').reverse, rfl⟩ hsp
              exact (spacesAreSP_cons.mp h1).1 hcspace
            have hrestne : rest ≠ [] := by
              intro hz
              subst hz
              rw [lastNoSpace_append (by simp)] at hlast
              rw [lastNoSpace_singleton, Bool.not_eq_true'] at hlast
              rw [hcspace] at hlast
              exact Bool.noConfusion hlast
            have hadjcr : noAdjSpace (c :: rest) = true :=
              noAdjSpace_append_right hadj
            have hrestHead : headNoSpace rest = true :=
              (noAdjSpace_cons.mp hadjcr).1 hcspace
            rw [dropSpaces_of_headNoSpace hrestHead]
            have hrlen : rest.length < n := by
              simp only [List.length_cons] at hlen
              omega
            obtain ⟨ihne, ihjoin, ihfr⟩ := ih [] rest hrlen
              (by
                rw [List.reverse_nil, List.nil_append]
                exact spacesAreSP_of_suffix
                  ((List.suffix_cons c rest).trans ⟨(p :: acc').reverse, rfl⟩) hsp)
              (by
                rw [List.reverse_nil, List.nil_append]
                exact (noAdjSpace_cons.mp hadjcr).2)
              (by
                rw [List.reverse_nil, List.nil_append]
                rw [lastNoSpace_append (by simp : (c :: rest) ≠ [])] at hlast
                rwa [lastNoSpace_cons_of_ne hrestne] at hlast)
              (by rw [List.reverse_nil]; rfl)
              (fun _ => ⟨hrestne, hrestHead⟩)
            refine ⟨by simp, ?_, ?_⟩
            · rw [joinSpace_cons_ne ihne, ihjoin, List.reverse_nil,
                List.nil_append, hcSP]
            · intro f hf
              rw [List.mem_cons] at hf
              rcases hf with hf | hf
              · subst hf
                refine ⟨hrevne, hhead, ?_⟩
                unfold lastNoSpace
                rw [List.getLast?_reverse]
                rw [accPunct] at hpunct
                rw [Bool.or_eq_true, Bool.or_eq_true] at hpunct
                rcases hpunct with (hq | hq) | hq <;>
                  (rw [decide_eq_true_eq] at hq; rw [List.head?_cons, hq]; decide)
              · exact ihfr f hf
          · rw [if_neg hcond]
            have hrw : (c :: acc).reverse ++ rest = acc.reverse ++ c :: rest := by
              rw [List.reverse_cons, List.append_assoc]
              rfl
            have hrlen : rest.length < n := by
              simp only [List.length_cons] at hlen
              omega
            obtain ⟨ihne, ihjoin, ihfr⟩ := ih (c :: acc) rest hrlen
              (by rw [hrw]; exact hsp)
              (by rw [hrw]; exact hadj)
              (by rw [hrw]; exact hlast)
              (by
                rw [List.reverse_cons]
                cases acc with
                | nil =>
                    rw [List.reverse_nil, List.nil_append, headNoSpace_cons]
                    have := (hacc rfl).2
                    rwa [headNoSpace_cons] at this
                | cons a0 at0 =>
                    rw [headNoSpace_append_left (by simp)]
                    exact hhead)
              (fun hz => List.noConfusion hz)
            rw [hrw] at ihjoin
            exact ⟨ihne, ihjoin, ihfr⟩

end Vansh

namespace Vansh

/-! ## Case-lifting: `capJoin` changes only sentence-head casing -/

/-- `l'` is `l` with some characters replaced by their uppercase form. -/
inductive UpperLift : List Char → List Char → Prop
  | nil : UpperLift [] []
  | keep (c : Char) {l l' : List Char} : UpperLift l l' → UpperLift (c :: l) (c :: l')
  | up (c : Char) {l l' : List Char} : UpperLift l l' → UpperLift (c :: l) (upperC c :: l')

theorem UpperLift.refl : ∀ l : List Char, UpperLift l l
  | [] => UpperLift.nil
  | c :: rest => UpperLift.keep c (UpperLift.refl rest)

theorem UpperLift.append {a a' b b' : List Char}
    (ha : UpperLift a a') (hb : UpperLift b b') : UpperLift (a ++ b) (a' ++ b') := by
  induction ha with
  | nil => exact hb
  | keep c _ ih => exact UpperLift.keep c ih
  | up c _ ih => exact UpperLift.up c ih

theorem upperLift_capHead (f : List Char) : UpperLift f (capHead f) := by
  cases f with
  | nil => exact UpperLift.nil
  | cons c rest => exact UpperLift.up c (UpperLift.refl rest)

theorem upperLift_joinSpace :
    ∀ fs : List (List Char), UpperLift (joinSpace fs) (joinSpace (fs.map capHead)) := by
  intro fs
  induction fs with
  | nil => exact UpperLift.nil
  | cons p rest ih =>
      match rest with
      | [] => exact upperLift_capHead p
      | q :: rest2 =>
          rw [List.map_cons, joinSpace_cons_ne (by simp : (q :: rest2) ≠ []),
            joinSpace_cons_ne (by simp : List.map capHead (q :: rest2) ≠ [])]
          exact UpperLift.append (upperLift_capHead p)
            (UpperLift.keep ' ' ih)

theorem UpperLift.length_eq {l l' : List Char} (h : UpperLift l l') :
    l'.length = l.length := by
  induction h with
  | nil => rfl
  | keep c _ ih => simp [ih]
  | up c _ ih => simp [ih]

theorem UpperLift.all_ascii {l l' : List Char} (h : UpperLift l l')
    (hl : l.all isAsciiC = true) : l'.all isAsciiC = true := by
  induction h with
  | nil => exact hl
  | keep c _ ih =>
      rw [List.all_cons, Bool.and_eq_true] at hl ⊢
      exact ⟨hl.1, ih hl.2⟩
  | up c _ ih =>
      rw [List.all_cons, Bool.and_eq_true] at hl ⊢
      exact ⟨isAsciiC_upperC hl.1, ih hl.2⟩

theorem UpperLift.head_space {l l' : List Char} (h : UpperLift l l') :
    headNoSpace l' = headNoSpace l := by
  cases h with
  | nil => rfl
  | keep c _ => rfl
  | up c _ =>
      rw [headNoSpace_cons, headNoSpace_cons, isSpaceC_upperC]

theorem UpperLift.spaces {l l' : List Char} (h : UpperLift l l')
    (hl : spacesAreSP l = true) : spacesAreSP l' = true := by
  induction h with
  | nil => exact hl
  | keep c _ ih =>
      rw [spacesAreSP_cons] at hl ⊢
      exact ⟨hl.1, ih hl.2⟩
  | up c _ ih =>
      rw [spacesAreSP_cons] at hl ⊢
      refine ⟨fun hc => ?_, ih hl.2⟩
      rw [isSpaceC_upperC] at hc
      rw [upperC_of_space hc]
      exact hl.1 hc

theorem UpperLift.adj {l l' : List Char} (h : UpperLift l l')
    (hl : noAdjSpace l = true) : noAdjSpace l' = true := by
  induction h with
  | nil => exact hl
  | keep c hrec ih =>
      rw [noAdjSpace_cons] at hl ⊢
      refine ⟨fun hc => ?_, ih hl.2⟩
      rw [hrec.head_space]
      exact hl.1 hc
  | up c hrec ih =>
      rw [noAdjSpace_cons] at hl ⊢
      refine ⟨fun hc => ?_, ih hl.2⟩
      rw [isSpaceC_upperC] at hc
      rw [hrec.head_space]
      exact hl.1 hc

theorem UpperLift.last_space {l l' : List Char} (h : UpperLift l l')
    (hl : lastNoSpace l = true) : lastNoSpace l' = true := by
  induction h with
  | nil => exact hl
  | @keep c a a' hrec ih =>
      by_cases ha : a = []
      · subst ha
        cases hrec
        exact hl
      · have ha' : a' ≠ [] := by
          intro hz
          subst hz
          exact ha (List.length_eq_zero.mp hrec.length_eq.symm)
        rw [lastNoSpace_cons_of_ne ha'] 
        rw [lastNoSpace_cons_of_ne ha] at hl
        exact ih hl
  | @up c a a' hrec ih =>
      by_cases ha : a = []
      · subst ha
        cases hrec
        rw [lastNoSpace_singleton] at hl ⊢
        rw [isSpaceC_upperC]
        exact hl
      · have ha' : a' ≠ [] := by
          intro hz
          subst hz
          exact ha (List.length_eq_zero.mp hrec.length_eq.symm)
        rw [lastNoSpace_cons_of_ne ha']
        rw [lastNoSpace_cons_of_ne ha] at hl
        exact ih hl

theorem UpperLift.norm {l l' : List Char} (h : UpperLift l l')
    (hl : isNormWS l = true) : isNormWS l' = true := by
  obtain ⟨a, b, c, d⟩ := isNormWS_iff.mp hl
  refine isNormWS_iff.mpr ⟨h.spaces a, h.adj b, ?_, h.last_space d⟩
  rw [h.head_space]
  exact c

/-- Under whitespace normalization, `capJoin` only lifts sentence heads. -/
theorem upperLift_capJoin {l : List Char} (hnorm : isNormWS l = true)
    (hne : l ≠ []) : UpperLift l (capJoin l) := by
  obtain ⟨a, b, c, d⟩ := isNormWS_iff.mp hnorm
  obtain ⟨_, hjoin, _⟩ := sentSplitGo_spec (l.length + 1) [] l
    (Nat.lt_succ_self _)
    (by rw [List.reverse_nil, List.nil_append]; exact a)
    (by rw [List.reverse_nil, List.nil_append]; exact b)
    (by rw [List.reverse_nil, List.nil_append]; exact d)
    (by rw [List.reverse_nil]; rfl)
    (fun _ => ⟨hne, c⟩)
  have hj : joinSpace (sentSplit l) = l := by
    unfold sentSplit
    rw [hjoin, List.reverse_nil, List.nil_append]
  have hcap : UpperLift (joinSpace (sentSplit l)) (capJoin l) :=
    upperLift_joinSpace (sentSplit l)
  rw [hj] at hcap
  exact hcap

end Vansh

namespace Vansh

/-! ## Shape of the sanitizer output -/

theorem pyStrip_of_normWS {l : List Char} (h : isNormWS l = true) :
    pyStrip l = l := by
  obtain ⟨_, _, h3, h4⟩ := isNormWS_iff.mp h
  exact pyStrip_of_norm h3 h4

/-- The sanitizer output is empty or whitespace-normalized. -/
theorem clean_ai_output_norm (t : List Char) :
    clean_ai_output t = [] ∨ isNormWS (clean_ai_output t) = true := by
  unfold clean_ai_output
  by_cases ht : t = []
  · rw [if_pos ht, ht]
    exact Or.inl rfl
  · rw [if_neg ht]
    have h5 := cleanStage5_norm (cleanStage4 (cleanStage3 (cleanStage2
      (cleanStage1 t))))
    unfold cleanStage6
    by_cases hc5 : cleanStage5 (cleanStage4 (cleanStage3 (cleanStage2
        (cleanStage1 t)))) = []
    · rw [if_pos hc5, hc5]
      exact Or.inl rfl
    · rw [if_neg hc5]
      right
      have hlift := upperLift_capJoin h5 hc5
      have hnorm := hlift.norm h5
      rw [pyStrip_of_normWS hnorm]
      exact hnorm

/-- The sanitizer output, when it is non-empty, has the same length as
the capitalization-stage input and lifts from it; packaged facts used for
the baseline. -/
theorem clean_ai_output_strip_fix (t : List Char) :
    pyStrip (clean_ai_output t) = clean_ai_output t := by
  rcases clean_ai_output_norm t with h | h
  · rw [h]
    rfl
  · exact pyStrip_of_normWS h

/-! ## The deterministic baseline floor (C3) -/

theorem filter_all (p : Char → Bool) (l : List Char) :
    (l.filter p).all p = true := by
  rw [List.all_eq_true]
  intro c hc
  exact (List.mem_filter.mp hc).2

theorem takeWord_mem : ∀ (l : List Char) (c : Char), c ∈ takeWord l → c ∈ l := by
  intro l
  induction l with
  | nil => intro c hc; exact absurd hc (by rw [takeWord]; simp)
  | cons d rest ih =>
      intro c hc
      rw [takeWord] at hc
      by_cases hd : isSpaceC d
      · rw [if_pos hd] at hc
        exact absurd hc (by simp)
      · rw [if_neg hd] at hc
        rw [List.mem_cons] at hc ⊢
        rcases hc with hc | hc
        · exact Or.inl hc
        · exact Or.inr (ih c hc)

theorem dropWord_suffix : ∀ l : List Char, dropWord l <:+ l := by
  intro l
  induction l with
  | nil => exact List.suffix_rfl
  | cons c rest ih =>
      rw [dropWord]
      by_cases hc : isSpaceC c
      · rw [if_pos hc]
      · rw [if_neg hc]
        exact ih.trans (List.suffix_cons c rest)

theorem pySplitF_all {p : Char → Bool} :
    ∀ (fuel : Nat) (l : List Char), l.all p = true →
      ∀ w ∈ pySplitF fuel l, w.all p = true := by
  intro fuel
  induction fuel with
  | zero => intro l _ w hw; exact absurd hw (by rw [pySplitF]; simp)
  | succ n ih =>
      intro l hl w hw
      match l with
      | [] => exact absurd hw (List.not_mem_nil w)
      | c :: rest =>
          rw [pySplitF] at hw
          rw [List.all_cons, Bool.and_eq_true] at hl
          by_cases hc : isSpaceC c
          · rw [if_pos hc] at hw
            exact ih rest hl.2 w hw
          · rw [if_neg hc] at hw
            rw [List.mem_cons] at hw
            rcases hw with hw | hw
            · subst hw
              rw [List.all_cons, Bool.and_eq_true]
              refine ⟨hl.1, ?_⟩
              rw [List.all_eq_true]
              intro x hx
              exact List.all_eq_true.mp hl.2 x (takeWord_mem rest x hx)
            · exact ih (dropWord rest) (all_of_suffix (dropWord_suffix rest) hl.2)
                w hw

theorem dedupAdjGo_mem :
    ∀ (ws : List (List Char)) (prev : List Char) (w : List Char),
      w ∈ dedupAdjGo prev ws → w ∈ ws := by
  intro ws
  induction ws with
  | nil => intro prev w hw; exact absurd hw (by rw [dedupAdjGo]; simp)
  | cons x rest ih =>
      intro prev w hw
      rw [dedupAdjGo] at hw
      by_cases hx : pyLower x = pyLower prev
      · rw [if_pos hx] at hw
        exact List.mem_cons_of_mem x (ih x w hw)
      · rw [if_neg hx] at hw
        rw [List.mem_cons] at hw
        rcases hw with hw | hw
        · subst hw; exact List.mem_cons_self w rest
        · exact List.mem_cons_of_mem x (ih x w hw)

theorem dedupAdjacent_ascii {l : List Char} (h : l.all isAsciiC = true) :
    (dedupAdjacent l).all isAsciiC = true := by
  unfold dedupAdjacent
  have hsplit : ∀ w ∈ pySplit l, w.all isAsciiC = true :=
    pySplitF_all l.length l h
  cases hx : pySplit l with
  | nil => exact h
  | cons w ws =>
      match ws with
      | [] => exact h
      | w2 :: ws2 =>
          refine joinSpace_all (by decide) _ ?_
          intro f hf
          rw [List.mem_cons] at hf
          rcases hf with hf | hf
          · subst hf
            exact hsplit f (by rw [hx]; exact List.mem_cons_self f _)
          · refine hsplit f ?_
            rw [hx]
            exact List.mem_cons_of_mem w
              (dedupAdjGo_mem (w2 :: ws2) w f hf)

theorem grammarSubs_ascii {l : List Char} (h : l.all isAsciiC = true) :
    (grammarSubs l).all isAsciiC = true := by
  unfold grammarSubs
  exact subScan_all (pres_mGrammar (by decide))
    (subScan_all (pres_mGrammar (by decide))
      (subScan_all (pres_mGrammar (by decide))
        (subScan_all (pres_mGrammar (by decide))
          (subScan_all (pres_mGrammar (by decide))
            (subScan_all (pres_mGrammar (by decide))
              (subScan_all (pres_mGrammar (by decide))
                (subScan_all (pres_mGrammar (by decide))
                  (subScan_all (pres_mGrammar (by decide)) h))))))))

theorem cap7_of_frags :
    ∀ fs : List (List Char), (∀ f ∈ fs, f ≠ [] ∧ pyStrip f = f) →
      cap7 fs = some (fs.map capHead) := by
  intro fs
  induction fs with
  | nil => intro _; rfl
  | cons s rest ih =>
      intro h
      obtain ⟨hne, hstrip⟩ := h s (List.mem_cons_self s rest)
      have hrest := ih (fun f hf => h f (List.mem_cons_of_mem s hf))
      obtain ⟨c, cs, rfl⟩ : ∃ c cs, s = c :: cs := by
        cases s with
        | nil => exact absurd rfl hne
        | cons c cs => exact ⟨c, cs, rfl⟩
      rw [cap7, if_neg hne, hstrip]
      dsimp only
      rw [hrest, Option.map_some']
      rfl

end Vansh

namespace Vansh

theorem polishStep7_of_norm {L : List Char} (hnorm : isNormWS L = true)
    (hne : L ≠ []) :
    ∃ r, polishStep7 L = some r ∧ r.length = L.length ∧
      (L.all isAsciiC = true → r.all isAsciiC = true) := by
  obtain ⟨a, b, c, d⟩ := isNormWS_iff.mp hnorm
  obtain ⟨hfne, hjoin, hfr⟩ := sentSplitGo_spec (L.length + 1) [] L
    (Nat.lt_succ_self _)
    (by rwa [List.reverse_nil, List.nil_append])
    (by rwa [List.reverse_nil, List.nil_append])
    (by rwa [List.reverse_nil, List.nil_append])
    (by rw [List.reverse_nil]; rfl)
    (fun _ => ⟨hne, c⟩)
  have hcap : cap7 (sentSplit L) = some ((sentSplit L).map capHead) := by
    apply cap7_of_frags
    intro f hf
    have hff := hfr f hf
    exact ⟨hff.1, pyStrip_of_norm hff.2.1 hff.2.2⟩
  have hlift : UpperLift L (joinSpace ((sentSplit L).map capHead)) :=
    upperLift_capJoin hnorm hne
  have hnorm2 : isNormWS (joinSpace ((sentSplit L).map capHead)) = true :=
    hlift.norm hnorm
  refine ⟨joinSpace ((sentSplit L).map capHead), ?_, hlift.length_eq, ?_⟩
  · unfold polishStep7
    rw [hcap, Option.map_some', pyStrip_of_normWS hnorm2]
  · intro hac
    exact hlift.all_ascii hac

/-- C3: for every input string (including the empty string),
`rule_based_polish` returns without raising a non-empty string of length
at least 5 whose characters all have code point below 128.  The
definition is a pure function built only from the string operations of
the source: no network component appears in it. -/
theorem rule_based_polish_floor (text : List Char) :
    ∃ r, rule_based_polish text = some r ∧ r ≠ [] ∧ 5 ≤ r.length ∧
      r.all isAsciiC = true := by
  unfold rule_based_polish
  by_cases ht : text = []
  · rw [if_pos ht]
    exact ⟨fallbackEmptyText, rfl, by decide, by decide, by decide⟩
  · rw [if_neg ht]
    have hascii : (clean_ai_output (polishPrep text)).all isAsciiC = true := by
      unfold polishPrep
      exact clean_ai_output_ascii (dedupAdjacent_ascii (grammarSubs_ascii
        (subScan_all pres_mFillers2 (subScan_all pres_mFillers1
          (filter_all isAsciiC text)))))
    by_cases hshort : clean_ai_output (polishPrep text) = [] ∨
        (pyStrip (clean_ai_output (polishPrep text))).length < 5
    · rw [if_pos hshort]
      exact ⟨fallbackShortText, rfl, by decide, by decide, by decide⟩
    · rw [if_neg hshort]
      push_neg at hshort
      obtain ⟨hne, hlen⟩ := hshort
      have hnorm : isNormWS (clean_ai_output (polishPrep text)) = true := by
        rcases clean_ai_output_norm (polishPrep text) with h | h
        · exact absurd h hne
        · exact h
      rw [pyStrip_of_normWS hnorm] at hlen
      have h5 : 5 ≤ (clean_ai_output (polishPrep text)).length := hlen
      obtain ⟨r, hr, hrlen, hrascii⟩ := polishStep7_of_norm hnorm hne
      refine ⟨r, hr, ?_, ?_, hrascii hascii⟩
      · intro hz
        rw [hz] at hrlen
        simp only [List.length_nil] at hrlen
        omega
      · omega

end Vansh

namespace Vansh

/-! ## The sanitizer on already-sanitized text (C9) -/

theorem subScan_of_noMatchAll {m : Matcher} {l : List Char}
    (h : noMatchAll m l = true) : subScan m l = l :=
  subScanF_of_noMatch m l.length none l h

theorem subScanF_mWs_id :
    ∀ (fuel : Nat) (prev : Option Char) (l : List Char),
      spacesAreSP l = true → noAdjSpace l = true →
      subScanF mWs fuel prev l = l := by
  intro fuel
  induction fuel with
  | zero => intro prev l _ _; rfl
  | succ n ih =>
      intro prev l h1 h2
      match l with
      | [] => rfl
      | c :: rest =>
          have hmeq : mWs prev (c :: rest) =
              (if isSpaceC c = true then some ([' '], dropSpaces rest)
               else none) := rfl
          by_cases hc : isSpaceC c = true
          · rw [if_pos hc] at hmeq
            have hrest : headNoSpace rest = true := (noAdjSpace_cons.mp h2).1 hc
            have hdrop : dropSpaces rest = rest := dropSpaces_of_headNoSpace hrest
            have hlt : (dropSpaces rest).length < (c :: rest).length := by
              rw [hdrop]
              simp
            simp only [subScanF, hmeq, dif_pos hlt]
            rw [hdrop]
            have hsp : c = ' ' := (spacesAreSP_cons.mp h1).1 hc
            rw [ih _ rest (spacesAreSP_cons.mp h1).2 (noAdjSpace_cons.mp h2).2]
            rw [List.singleton_append, hsp]
          · rw [if_neg hc] at hmeq
            simp only [subScanF, hmeq]
            rw [ih (some c) rest (spacesAreSP_cons.mp h1).2
              (noAdjSpace_cons.mp h2).2]

theorem cleanLoopF_id {l : List Char} (fuel : Nat)
    (hA : noMatchAll mSubA l = true) (hD : noMatchAll mDedup l = true)
    (hstrip : pyStrip l = l) : cleanLoopF (fuel + 1) l = l := by
  rw [cleanLoopF]
  rw [subScan_of_noMatchAll hA, hstrip, subScan_of_noMatchAll hD]
  rw [if_pos rfl]

theorem capJoin_of_headsUpperFixed {l : List Char}
    (hnorm : isNormWS l = true) (hne : l ≠ [])
    (hcaps : headsUpperFixed l = true) : capJoin l = l := by
  obtain ⟨a, b, c, d⟩ := isNormWS_iff.mp hnorm
  obtain ⟨_, hjoin, _⟩ := sentSplitGo_spec (l.length + 1) [] l
    (Nat.lt_succ_self _)
    (by rwa [List.reverse_nil, List.nil_append])
    (by rwa [List.reverse_nil, List.nil_append])
    (by rwa [List.reverse_nil, List.nil_append])
    (by rw [List.reverse_nil]; rfl)
    (fun _ => ⟨hne, c⟩)
  have hmap : (sentSplit l).map capHead = sentSplit l := by
    unfold headsUpperFixed at hcaps
    rw [List.all_eq_true] at hcaps
    have : ∀ f ∈ sentSplit l, capHead f = f := by
      intro f hf
      have := hcaps f hf
      rwa [decide_eq_true_eq] at this
    calc (sentSplit l).map capHead = (sentSplit l).map id :=
          List.map_congr_left this
      _ = sentSplit l := List.map_id _
  unfold capJoin
  rw [hmap]
  have : joinSpace (sentSplit l) = l := by
    unfold sentSplit
    rw [hjoin, List.reverse_nil, List.nil_append]
  exact this

/-- On a fully sanitized string (no pattern matches anywhere, whitespace
normalized, sentence heads already capitalized) the sanitizer is the
identity. -/
theorem clean_ai_output_of_sanitized {l : List Char}
    (h : SanitizedStr l = true) : clean_ai_output l = l := by
  unfold SanitizedStr at h
  repeat rw [Bool.and_eq_true] at h
  obtain ⟨⟨⟨⟨⟨⟨⟨⟨⟨⟨⟨⟨⟨⟨hBB, hTT⟩, hTk⟩, hTh⟩, h1⟩, h2⟩, h3⟩, h4⟩, h5⟩, hA⟩,
    hD⟩, hDots⟩, hPunct⟩, hNorm⟩, hCaps⟩ := h
  by_cases hne : l = []
  · rw [hne]
    rfl
  · unfold clean_ai_output
    rw [if_neg hne]
    have e1 : cleanStage1 l = l := by
      unfold cleanStage1
      rw [subScan_of_noMatchAll hBB, subScan_of_noMatchAll hTT,
        pyStrip_of_normWS hNorm]
    have e2 : cleanStage2 l = l := by
      unfold cleanStage2
      rw [subScan_of_noMatchAll hTk, subScan_of_noMatchAll hTh]
    have e3 : cleanStage3 l = l := by
      unfold cleanStage3
      rw [subScan_of_noMatchAll h1, subScan_of_noMatchAll h2,
        subScan_of_noMatchAll h3, subScan_of_noMatchAll h4,
        subScan_of_noMatchAll h5]
    have e4 : cleanStage4 l = l := by
      unfold cleanStage4
      exact cleanLoopF_id l.length hA hD (pyStrip_of_normWS hNorm)
    have e5 : cleanStage5 l = l := by
      unfold cleanStage5
      obtain ⟨a, b, _, _⟩ := isNormWS_iff.mp hNorm
      rw [show subScan mWs l = l from subScanF_mWs_id l.length none l a b]
      rw [pyStrip_of_normWS hNorm, subScan_of_noMatchAll hDots,
        subScan_of_noMatchAll hPunct]
    have e6 : cleanStage6 l = l := by
      unfold cleanStage6
      rw [if_neg hne]
      exact capJoin_of_headsUpperFixed hNorm hne hCaps
    rw [e1, e2, e3, e4, e5, e6, pyStrip_of_normWS hNorm]

end Vansh

namespace Vansh

/-- C9 counterexample: the sanitizer is not idempotent.  On
`"hello you  know world"` the first pass collapses the double space
(creating the filler marker `you know`), and only the second pass removes
it, so the two results differ. -/
theorem sanitize_not_idempotent :
    clean_ai_output (clean_ai_output (("hello you  know world").toList))
      ≠ clean_ai_output (("hello you  know world").toList) := by decide

/-- C9 (amended): the sanitizer is idempotent on every input whose
sanitized form is fully sanitized — no artifact/filler/stutter pattern
matches anywhere in it, its whitespace is normalized, and its sentence
heads are already capitalized (`SanitizedStr`); on such outputs the
second pass is the identity.  Full idempotence fails
(`sanitize_not_idempotent`). -/
theorem sanitize_idempotent_on_sanitized (x : List Char)
    (h : SanitizedStr (clean_ai_output x) = true) :
    clean_ai_output (clean_ai_output x) = clean_ai_output x :=
  clean_ai_output_of_sanitized h

theorem sanitize_idempotent_on_sanitized_witness :
    SanitizedStr (clean_ai_output (("Hello world.").toList)) = true
    ∧ clean_ai_output (clean_ai_output (("Hello world.").toList))
        = clean_ai_output (("Hello world.").toList) :=
  ⟨by decide,
   sanitize_idempotent_on_sanitized (("Hello world.").toList) (by decide)⟩

end Vansh

namespace Vansh

/-! ## The structural book fallback always yields 1–5 chapters -/

theorem sentSplitGo_ne_nil : ∀ (fuel : Nat) (acc l : List Char),
    sentSplitGo fuel acc l ≠ [] := by
  intro fuel
  induction fuel with
  | zero => intro acc l; simp [sentSplitGo_zero]
  | succ n ih =>
      intro acc l
      cases l with
      | nil => simp [sentSplitGo_nil]
      | cons c rest =>
          rw [sentSplitGo_cons]
          split
          · simp
          · exact ih _ _

theorem sentSplit_ne_nil (l : List Char) : sentSplit l ≠ [] :=
  sentSplitGo_ne_nil _ _ _

theorem groupGo_nil (groups current : List (List Char)) :
    groupGo groups current [] = groups := rfl

theorem groupGo_cons (groups current : List (List Char)) (sent : List Char)
    (rest : List (List Char)) :
    groupGo groups current (sent :: rest) =
      if (((pivots.any (fun p => containsSub p (pyLower sent)))
             && decide (8 < (current ++ [sent]).length))
          || rest.isEmpty) && decide (5 ≤ (current ++ [sent]).length) then
        groupGo (groups ++ [joinSpace (current ++ [sent])]) [] rest
      else if rest.isEmpty && !((current ++ [sent]).isEmpty) then
        match groups with
        | [] => [joinSpace (current ++ [sent])]
        | _ :: _ => updateLast groups (joinSpace (current ++ [sent]))
      else groupGo groups (current ++ [sent]) rest := rfl

theorem updateLast_ne_nil (groups : List (List Char)) (txt : List Char)
    (h : groups ≠ []) : updateLast groups txt ≠ [] := by
  cases groups with
  | nil => exact absurd rfl h
  | cons g rest => cases rest <;> simp [updateLast]

theorem groupGo_single_ne (groups current : List (List Char)) (sent : List Char) :
    groupGo groups current [sent] ≠ [] := by
  rw [groupGo_cons]
  have hemp : (current ++ [sent]).isEmpty = false := by cases current <;> rfl
  by_cases h5 : (5 ≤ (current ++ [sent]).length)
  · rw [if_pos]
    · show groups ++ [joinSpace (current ++ [sent])] ≠ []
      simp
    · simp only [List.length_append, List.length_cons, List.length_nil] at h5
      simp
      omega
  · rw [if_neg, if_pos]
    · cases groups with
      | nil => simp
      | cons g rest => exact updateLast_ne_nil (g :: rest) _ (by simp)
    · simp [hemp]
    · simp only [List.length_append, List.length_cons, List.length_nil] at h5
      simp
      omega

theorem groupGo_cons_cons_ne (groups current : List (List Char))
    (sent r : List Char) (rs : List (List Char))
    (ih : ∀ groups current, groupGo groups current (r :: rs) ≠ []) :
    groupGo groups current (sent :: r :: rs) ≠ [] := by
  rw [groupGo_cons]
  simp only [List.isEmpty_cons, Bool.or_false, Bool.false_and, Bool.and_false,
    Bool.false_eq_true, if_false]
  split
  · exact ih _ _
  · exact ih _ _

theorem groupGo_ne_nil : ∀ (l : List (List Char)), l ≠ [] →
    ∀ groups current, groupGo groups current l ≠ [] := by
  intro l
  induction l with
  | nil => intro h; exact absurd rfl h
  | cons sent rest ih =>
      intro _ groups current
      cases rest with
      | nil => exact groupGo_single_ne groups current sent
      | cons r rs =>
          exact groupGo_cons_cons_ne groups current sent r rs (ih (by simp))

theorem minIdxGo_lt : ∀ (rest : List (List Char)) (k best bestLen : Nat),
    best < k → minIdxGo rest k best bestLen < k + rest.length := by
  intro rest
  induction rest with
  | nil => intro k best bestLen h; simpa [minIdxGo] using h
  | cons g rs ih =>
      intro k best bestLen h
      simp only [minIdxGo]
      split
      · have := ih (k + 1) k g.length (by omega)
        simp only [List.length_cons]
        omega
      · have := ih (k + 1) best bestLen (by omega)
        simp only [List.length_cons]
        omega

theorem minIdx_lt (g : List Char) (rest : List (List Char)) :
    minIdx (g :: rest) < (g :: rest).length := by
  have := minIdxGo_lt rest 1 0 g.length (by omega)
  simp only [minIdx, List.length_cons]
  omega

theorem mergeAt_length : ∀ (i : Nat) (gs : List (List Char)),
    1 ≤ i → i < gs.length → (mergeAt i gs).length + 1 = gs.length := by
  intro i
  induction i with
  | zero => intro gs h1 _; omega
  | succ n ih =>
      intro gs h1 h2
      cases gs with
      | nil => simp at h2
      | cons g0 rest =>
          cases n with
          | zero =>
              cases rest with
              | nil => simp at h2
              | cons g1 rs => simp [mergeAt]
          | succ m =>
              cases rest with
              | nil => simp at h2
              | cons g1 rs =>
                  have hlt : m + 1 < (g1 :: rs).length := by
                    simp only [List.length_cons] at h2 ⊢
                    omega
                  have := ih (g1 :: rs) (by omega) hlt
                  show (g0 :: mergeAt (m + 1) (g1 :: rs)).length + 1 = _
                  simp only [List.length_cons] at this ⊢
                  omega

theorem mergeStep_length (gs : List (List Char)) (h : 2 ≤ gs.length) :
    (mergeStep gs).length + 1 = gs.length := by
  unfold mergeStep
  cases gs with
  | nil => simp at h
  | cons g rest =>
      by_cases h0 : minIdx (g :: rest) = 0
      · rw [if_pos h0]
        exact mergeAt_length 1 (g :: rest) (by omega)
          (by simp only [List.length_cons] at h ⊢; omega)
      · rw [if_neg h0]
        exact mergeAt_length _ _ (by omega) (minIdx_lt g rest)

theorem mergeLoopF_le_five : ∀ (fuel : Nat) (gs : List (List Char)),
    gs.length ≤ fuel + 5 → (mergeLoopF fuel gs).length ≤ 5 := by
  intro fuel
  induction fuel with
  | zero => intro gs h; simpa [mergeLoopF] using h
  | succ n ih =>
      intro gs h
      simp only [mergeLoopF]
      split
      · refine ih (mergeStep gs) ?_
        have := mergeStep_length gs (by omega)
        omega
      · omega

theorem mergeLoopF_ne_nil : ∀ (fuel : Nat) (gs : List (List Char)),
    gs ≠ [] → mergeLoopF fuel gs ≠ [] := by
  intro fuel
  induction fuel with
  | zero => intro gs h; simpa [mergeLoopF] using h
  | succ n ih =>
      intro gs h
      simp only [mergeLoopF]
      split
      · refine ih (mergeStep gs) ?_
        have h2 : 2 ≤ gs.length := by
          rename_i hlen
          omega
        have := mergeStep_length gs h2
        intro hz
        rw [hz] at this
        simp at this
        omega
      · exact h

theorem buildChapters_length (refineF sumF : List Char → List Char) :
    ∀ (gs : List (List Char)) (i : Nat),
      (buildChapters refineF sumF i gs).length = gs.length := by
  intro gs
  induction gs with
  | nil => intro i; rfl
  | cons g rest ih => intro i; simp [buildChapters, ih]

theorem thematic_book_fallback_eq (refineF sumF : List Char → List Char)
    (transcript title : List Char) :
    thematic_book_fallback refineF sumF transcript title =
      { title := title
        subtitle := ("A Masterfully Chronicled Legacy").toList
        chapters := buildChapters refineF sumF 0
          (mergeLoopF (groupGo [] [] (sentSplit transcript)).length
            (groupGo [] [] (sentSplit transcript))) } := by
  unfold thematic_book_fallback
  rw [if_neg (sentSplit_ne_nil transcript)]

theorem groupGo_three (s1 s2 s3 : List Char) :
    groupGo [] [] [s1, s2, s3] = [joinSpace [s1, s2, s3]] := by
  rw [groupGo_cons]
  simp only [List.nil_append, List.length_cons, List.length_nil]
  norm_num
  rw [groupGo_cons]
  simp only [List.length_cons, List.length_nil]
  norm_num
  rw [groupGo_cons]
  simp only [List.length_cons, List.length_nil]
  norm_num

end Vansh

namespace Vansh

/-- C6: for every transcript and title (and any outcome of the per-chapter
`refine_text`/`summarize` calls, abstracted as `refineF`/`sumF`), the
structural book fallback returns a well-formed book — the given title, the
fixed subtitle, and between 1 and 5 chapters; a transcript that segments
into exactly 3 sentences yields exactly 1 chapter; and the book returned
by the `except` branch (`_get_empty_book`) also has exactly 1 chapter. -/
theorem thematic_book_fallback_chapter_bounds
    (refineF sumF : List Char → List Char) (transcript title : List Char) :
    ((thematic_book_fallback refineF sumF transcript title).title = title
      ∧ (thematic_book_fallback refineF sumF transcript title).subtitle
          = ("A Masterfully Chronicled Legacy").toList)
    ∧ 1 ≤ (thematic_book_fallback refineF sumF transcript title).chapters.length
    ∧ (thematic_book_fallback refineF sumF transcript title).chapters.length ≤ 5
    ∧ (∀ t : List Char, (sentSplit t).length = 3 →
        (thematic_book_fallback refineF sumF t title).chapters.length = 1)
    ∧ (get_empty_book title).chapters.length = 1 := by
  have hgs : groupGo [] [] (sentSplit transcript) ≠ [] :=
    groupGo_ne_nil (sentSplit transcript) (sentSplit_ne_nil transcript) [] []
  have hlen :
      (thematic_book_fallback refineF sumF transcript title).chapters.length
        = (mergeLoopF (groupGo [] [] (sentSplit transcript)).length
            (groupGo [] [] (sentSplit transcript))).length := by
    rw [thematic_book_fallback_eq]
    exact buildChapters_length refineF sumF _ 0
  refine ⟨⟨?_, ?_⟩, ?_, ?_, ?_, rfl⟩
  · rw [thematic_book_fallback_eq]
  · rw [thematic_book_fallback_eq]
  · rw [hlen]
    have := mergeLoopF_ne_nil (groupGo [] [] (sentSplit transcript)).length
      (groupGo [] [] (sentSplit transcript)) hgs
    cases hm : mergeLoopF (groupGo [] [] (sentSplit transcript)).length
        (groupGo [] [] (sentSplit transcript)) with
    | nil => exact absurd hm this
    | cons a l => simp
  · rw [hlen]
    exact mergeLoopF_le_five _ _ (by omega)
  · intro t ht
    obtain ⟨s1, s2, s3, hs⟩ := List.length_eq_three.mp ht
    have hlt :
        (thematic_book_fallback refineF sumF t title).chapters.length
          = (mergeLoopF (groupGo [] [] (sentSplit t)).length
              (groupGo [] [] (sentSplit t))).length := by
      rw [thematic_book_fallback_eq]
      exact buildChapters_length refineF sumF _ 0
    rw [hlt, hs, groupGo_three]
    rfl

theorem thematic_book_fallback_chapter_bounds_witness :
    (sentSplit (("One. Two. Three.").toList)).length = 3
    ∧ (thematic_book_fallback id id (("One. Two. Three.").toList)
        (("My Story").toList)).chapters.length = 1 :=
  ⟨rfl,
   (thematic_book_fallback_chapter_bounds id id (("One. Two. Three.").toList)
       (("My Story").toList)).2.2.2.1 (("One. Two. Three.").toList) rfl⟩

end Vansh

namespace Vansh

/-! ## Cascade error handling: defaults everywhere except transcription -/

theorem geminiLoop_fail {V : Type} (jit : Nat → ℚ) :
    ∀ (fuel attempt : Nat)
      (outs : List (GeminiOutcome V × Option (Except (List Char) V))),
      (∀ p ∈ outs, geminiAttemptFailed p) →
      (geminiLoop jit fuel attempt outs).1 = none := by
  intro fuel
  induction fuel with
  | zero => intro attempt outs _; cases outs <;> rfl
  | succ r ih =>
      intro attempt outs h
      cases outs with
      | nil => rfl
      | cons p rest =>
          obtain ⟨out, sh⟩ := p
          have hp := h _ (List.mem_cons_self _ _)
          have hrest : ∀ q ∈ rest, geminiAttemptFailed q :=
            fun q hq => h q (List.mem_cons_of_mem _ hq)
          cases out with
          | ok v => exact absurd rfl (hp.1 v)
          | fatal e => rfl
          | transient e =>
              cases sh with
              | none =>
                  cases r with
                  | zero => rfl
                  | succ m => exact ih (attempt + 1) rest hrest
              | some exc =>
                  cases exc with
                  | ok v => exact absurd rfl (hp.2 v)
                  | error err =>
                      cases r with
                      | zero => rfl
                      | succ m => exact ih (attempt + 1) rest hrest

theorem safe_ai_call_default {V : Type} (oa ga : Bool) (e eL : List Char)
    (maxR : Nat)
    (outs : List (GeminiOutcome V × Option (Except (List Char) V)))
    (jit : Nat → ℚ) (d : Option V)
    (h : ∀ p ∈ outs, geminiAttemptFailed p) :
    (safe_ai_call oa (.error e) ga maxR outs jit (some (.error eL)) d).1 = d := by
  have hg := geminiLoop_fail jit maxR 0 outs h
  cases ga <;> cases oa <;> simp [safe_ai_call, hg]

/-- C1 counterexample: `TranscriptionService.transcribe` does propagate an
exception.  With an existing supported file, a failing cloud tier, and a
failing local tier, the bare `raise` re-raises the local error instead of
returning a value. -/
theorem transcribe_both_fail_raises :
    transcribe true (("wav").toList) (.error (("cloud down").toList))
        (.error (("local down").toList))
      = .error (PyExc.exc (("local down").toList)) := rfl

/-- C1 (amended): the text/book cascade (`_safe_ai_call`) and the image
cascade return a usable default under arbitrary tier failures — the
OpenAI tier erroring, every Gemini attempt (and its shuffled alternate)
failing, and the local fallback raising still yield the default value,
and the image cascade with every network tier failing yields the
placeholder source — but audio transcription is the exception: with both
tiers failing, `transcribe` re-raises the local error rather than
returning a value. -/
theorem cascades_default_except_transcription {V : Type} (oa ga : Bool)
    (e eL : List Char) (maxR : Nat)
    (outs : List (GeminiOutcome V × Option (Except (List Char) V)))
    (jit : Nat → ℚ) (d : Option V)
    (h : ∀ p ∈ outs, geminiAttemptFailed p)
    (eD eP eC eLoc : List Char) :
    (safe_ai_call oa (.error e) ga maxR outs jit (some (.error eL)) d).1 = d
    ∧ generate_chapter_image false (.error eD) (.error eP) none none
        = (ImageSource.placeholder, ("LOCAL_PLACEHOLDER").toList)
    ∧ transcribe true (("wav").toList) (.error eC) (.error eLoc)
        = .error (PyExc.exc eLoc) :=
  ⟨safe_ai_call_default oa ga e eL maxR outs jit d h, rfl, rfl⟩

theorem cascades_default_except_transcription_witness :
    (∀ p ∈ [((GeminiOutcome.transient (V := List Char) []),
             (none : Option (Except (List Char) (List Char))))],
      geminiAttemptFailed p)
    ∧ (safe_ai_call true
          (.error (("openai down").toList)) true 2
          [((GeminiOutcome.transient (V := List Char) []),
            (none : Option (Except (List Char) (List Char))))]
          (fun _ => 0)
          (some (.error (("local down").toList)))
          (some (("raw text").toList))).1
        = some (("raw text").toList) := by
  have hfail : ∀ p ∈ [((GeminiOutcome.transient (V := List Char) []),
      (none : Option (Except (List Char) (List Char))))], geminiAttemptFailed p := by
    intro p hp
    rw [List.mem_singleton] at hp
    subst hp
    exact ⟨fun v hv => GeminiOutcome.noConfusion hv,
           fun v hv => Option.noConfusion hv⟩
  exact ⟨hfail,
    (cascades_default_except_transcription true true (("openai down").toList)
      (("local down").toList) 2
      [((GeminiOutcome.transient (V := List Char) []),
        (none : Option (Except (List Char) (List Char))))]
      (fun _ => 0) (some (("raw text").toList)) hfail
      [] [] [] []).1⟩

end Vansh

namespace Vansh

/-! ## Stage-1/2 local refinement calls are unprotected -/

/-- C5 (code bug): when the local model runtime refuses the connection,
`_call_ollama` raises `ConnectionError("Ollama Offline")`, and the
stage-1 call of `refine_text` sits outside any `try`, so the exception
propagates out of `refine_text` instead of reaching the rule-based
baseline tier.  At the story level `_safe_ai_call` then swallows the
exception and returns `default_value` — the raw input — so the caller
receives the unpolished raw text, not the baseline polish the code's own
"Triggering Ironclad Baseline" path promises. -/
theorem connection_refused_bypasses_baseline :
    refine_text_local (("i was gonna go home umm you know").toList)
        [OllamaOutcome.connRefused] [] [] [] none
      = .error (("Ollama Offline").toList)
    ∧ (story_refine_text (("i was gonna go home umm you know").toList)
        false (.error []) false [] (fun _ => 0)
        [OllamaOutcome.connRefused] [] [] [] none).1
      = some (("i was gonna go home umm you know").toList)
    ∧ rule_based_polish (("i was gonna go home umm you know").toList)
      = some (("I was going to go home").toList)
    ∧ (("I was going to go home").toList)
      ≠ (("i was gonna go home umm you know").toList) :=
  ⟨rfl, rfl, by decide, by decide⟩

end Vansh

namespace Vansh

/-! ## Retry wait schedules of the two cloud helpers -/

theorem geminiLoop_waits {V : Type} (jit : Nat → ℚ) :
    ∀ (fuel attempt : Nat)
      (outs : List (GeminiOutcome V × Option (Except (List Char) V))),
      (∀ w ∈ (geminiLoop jit fuel attempt outs).2, ∃ k, w = 1 / 2 + jit k)
      ∧ (geminiLoop jit fuel attempt outs).2.length ≤ fuel - 1 := by
  intro fuel
  induction fuel with
  | zero =>
      intro attempt outs
      cases outs with
      | nil => exact ⟨fun w hw => absurd hw (List.not_mem_nil w), Nat.zero_le _⟩
      | cons p rest =>
          exact ⟨fun w hw => absurd hw (List.not_mem_nil w), Nat.zero_le _⟩
  | succ r ih =>
      intro attempt outs
      cases outs with
      | nil => exact ⟨fun w hw => absurd hw (List.not_mem_nil w), Nat.zero_le _⟩
      | cons p rest =>
          obtain ⟨out, sh⟩ := p
          cases out with
          | ok v => exact ⟨fun w hw => absurd hw (List.not_mem_nil w), Nat.zero_le _⟩
          | fatal e =>
              exact ⟨fun w hw => absurd hw (List.not_mem_nil w), Nat.zero_le _⟩
          | transient e =>
              cases sh with
              | none =>
                  cases r with
                  | zero =>
                      exact ⟨fun w hw => absurd hw (List.not_mem_nil w),
                             Nat.zero_le _⟩
                  | succ m =>
                      have he : geminiLoop jit (m + 1 + 1) attempt
                            ((GeminiOutcome.transient e,
                              (none : Option (Except (List Char) V))) :: rest)
                          = ((geminiLoop jit (m + 1) (attempt + 1) rest).1,
                             (1 / 2 + jit attempt)
                               :: (geminiLoop jit (m + 1) (attempt + 1) rest).2) :=
                        rfl
                      constructor
                      · intro w hw
                        rw [he] at hw
                        rcases List.mem_cons.mp hw with h1 | h2
                        · exact ⟨attempt, h1⟩
                        · exact (ih (attempt + 1) rest).1 w h2
                      · rw [he]
                        have hb := (ih (attempt + 1) rest).2
                        simp only [List.length_cons]
                        omega
              | some exc =>
                  cases exc with
                  | ok v =>
                      exact ⟨fun w hw => absurd hw (List.not_mem_nil w),
                             Nat.zero_le _⟩
                  | error err =>
                      cases r with
                      | zero =>
                          exact ⟨fun w hw => absurd hw (List.not_mem_nil w),
                                 Nat.zero_le _⟩
                      | succ m =>
                          have he : geminiLoop jit (m + 1 + 1) attempt
                                ((GeminiOutcome.transient e,
                                  some (Except.error err)) :: rest)
                              = ((geminiLoop jit (m + 1) (attempt + 1) rest).1,
                                 (1 / 2 + jit attempt)
                                   :: (geminiLoop jit (m + 1) (attempt + 1) rest).2) :=
                            rfl
                          constructor
                          · intro w hw
                            rw [he] at hw
                            rcases List.mem_cons.mp hw with h1 | h2
                            · exact ⟨attempt, h1⟩
                            · exact (ih (attempt + 1) rest).1 w h2
                          · rw [he]
                            have hb := (ih (attempt + 1) rest).2
                            simp only [List.length_cons]
                            omega

theorem sgcGo_waits {V : Type} (maxR : Nat) (outcomes : Nat → GeminiOutcome V)
    (jit : Nat → ℚ) (fb : Option V)
    (htr : ∀ a, a ≤ maxR → ∃ e, outcomes a = GeminiOutcome.transient e) :
    ∀ (rem attempt : Nat), attempt + rem = maxR + 1 →
      (sgcGo maxR outcomes jit fb rem attempt).2
        = expBackoffWaits jit attempt (maxR - attempt) := by
  intro rem
  induction rem with
  | zero =>
      intro attempt hsum
      have h0 : maxR - attempt = 0 := by omega
      rw [h0]
      rfl
  | succ m ih =>
      intro attempt hsum
      obtain ⟨e, he⟩ := htr attempt (by omega)
      by_cases ha : attempt = maxR
      · have h0 : maxR - attempt = 0 := by omega
        rw [h0]
        show (sgcGo maxR outcomes jit fb (m + 1) attempt).2 = []
        simp only [sgcGo, he]
        rw [if_pos ha]
      · have h0 : maxR - attempt = (maxR - (attempt + 1)) + 1 := by omega
        rw [h0]
        show (sgcGo maxR outcomes jit fb (m + 1) attempt).2
          = (2 ^ attempt + 2 * jit attempt)
              :: expBackoffWaits jit (attempt + 1) (maxR - (attempt + 1))
        rw [← ih (attempt + 1) (by omega)]
        simp only [sgcGo, he]
        rw [if_neg ha]

theorem safe_gemini_call_waits {V : Type} (maxR : Nat)
    (outcomes : Nat → GeminiOutcome V) (jit : Nat → ℚ) (fb : Option V)
    (htr : ∀ a, a ≤ maxR → ∃ e, outcomes a = GeminiOutcome.transient e) :
    (safe_gemini_call maxR outcomes jit fb).2 = expBackoffWaits jit 0 maxR := by
  have h := sgcGo_waits maxR outcomes jit fb htr (maxR + 1) 0 (by omega)
  simpa using h

/-- C8 counterexample: in the story-writer Gemini loop the wait after the
first transient error (with zero jitter draw) is `0.5` seconds, which no
`2 ^ attempt + jitter` with `jitter ∈ [0, 2)` can produce at
`attempt = 0`. -/
theorem story_backoff_not_exponential :
    (geminiLoop (V := List Char) (fun _ => 0) 2 0
        [(GeminiOutcome.transient [], none),
         (GeminiOutcome.transient [], none)]).2
      = [1 / 2]
    ∧ ¬ ∃ j : ℚ, 0 ≤ j ∧ j < 2 ∧ (1 / 2 : ℚ) = 2 ^ (0 : ℕ) + j := by
  constructor
  · show [(1 : ℚ) / 2 + 0] = [1 / 2]
    norm_num
  · rintro ⟨j, hj0, _, heq⟩
    rw [pow_zero] at heq
    linarith

/-- C8 (amended): the exponential `2 ^ attempt + random()*2` backoff with
budget `max_retries + 1` attempts lives in the image-generation Gemini
helper — on an all-transient run its waits are exactly
`2 ^ a + 2·jitter(a)` for `a = 0, …, max_retries - 1`; the story-writer
text cascade instead waits a constant `0.5 + random()` after each
transient attempt and stops after at most `max_retries` attempts
(`max_retries - 1` sleeps). -/
theorem backoff_schedules {V : Type} (maxR : Nat)
    (outcomes : Nat → GeminiOutcome V) (jit jit2 : Nat → ℚ) (fb : Option V)
    (fuel attempt : Nat)
    (outs : List (GeminiOutcome V × Option (Except (List Char) V)))
    (htr : ∀ a, a ≤ maxR → ∃ e, outcomes a = GeminiOutcome.transient e) :
    (safe_gemini_call maxR outcomes jit fb).2 = expBackoffWaits jit 0 maxR
    ∧ (∀ w ∈ (geminiLoop (V := V) jit2 fuel attempt outs).2,
        ∃ k, w = 1 / 2 + jit2 k)
    ∧ (geminiLoop (V := V) jit2 fuel attempt outs).2.length ≤ fuel - 1 :=
  ⟨safe_gemini_call_waits maxR outcomes jit fb htr,
   (geminiLoop_waits jit2 fuel attempt outs).1,
   (geminiLoop_waits jit2 fuel attempt outs).2⟩

theorem backoff_schedules_witness :
    (∀ a, a ≤ 3 →
      ∃ e, (fun _ : Nat => GeminiOutcome.transient (V := List Char) []) a
        = GeminiOutcome.transient e)
    ∧ (safe_gemini_call (V := List Char) 3
        (fun _ => GeminiOutcome.transient []) (fun _ => 0) none).2
      = [1, 2, 4] := by
  have htr : ∀ a, a ≤ 3 →
      ∃ e, (fun _ : Nat => GeminiOutcome.transient (V := List Char) []) a
        = GeminiOutcome.transient e := fun a _ => ⟨[], rfl⟩
  refine ⟨htr, ?_⟩
  have h := (backoff_schedules (V := List Char) 3
      (fun _ => GeminiOutcome.transient []) (fun _ => 0) (fun _ => 0) none
      2 0 [] htr).1
  rw [h]
  show [(2 : ℚ) ^ 0 + 2 * 0, 2 ^ 1 + 2 * 0, 2 ^ 2 + 2 * 0] = [1, 2, 4]
  norm_num

end Vansh
